import Mathlib

/-!
Verification of the core mechanisms of the reddit-clone-django-react repository:
the materialized-path comment tree (build + pre-order flattening), the like
ledger (uniqueness-constrained insert / delete), the 24-hour karma leaderboard
(weighted grouped counts, python-side merge, stable descending sort, top-5
truncation), the path allocator, the zero-padded path string encoding, and the
frontend like-toggle / reply-depth behaviour.

Backend code is embedded from the serializer/view/model code shown in
src/EXPLAINER.md; frontend code from src/frontend/src/components/Feed.jsx.
Machine integers do not overflow in any of the modelled quantities, so Nat/Int
are used directly.  Timestamps are modelled as Int.
-/

set_option autoImplicit false

namespace RedditClone

/-! ## Data model -/

/-- A comment row: id, author id, optional parent comment id, and the
materialized path as its sequence of integer segments. -/
structure Comment where
  id : Nat
  author : Nat
  parent : Option Nat
  path : List Nat
  deriving Repr, DecidableEq

/-- A post row (only the fields the leaderboard join needs). -/
structure Post where
  id : Nat
  author : Nat
  deriving Repr, DecidableEq

/-- A PostLike ledger row. -/
structure PostLike where
  postId : Nat
  userId : Nat
  createdAt : Int
  deriving Repr, DecidableEq

/-- A CommentLike ledger row. -/
structure CommentLike where
  commentId : Nat
  userId : Nat
  createdAt : Int
  deriving Repr, DecidableEq

/-! ## Tree Reconstructor (PostDetailSerializer.get_comments)

The python loop keeps `comment_dict` (every id inserted when its comment is
processed, the comment itself before its parent is looked up), `root_comments`
(append order), and each node's `replies` list (append order).  A parent id
absent from the dict raises a `KeyError`; we model that as the error case. -/

/-- Error signalled when a comment's parent id is not resolvable (the python
`comment_dict[comment.parent_id]` KeyError). -/
inductive BuildError where
  | orphanReference (commentId parentId : Nat)
  deriving Repr, DecidableEq

/-- State of the tree-building loop: ids already in `comment_dict`, the root
list, and the per-parent `replies` lists keyed by parent id. -/
structure BuildState where
  seen : List Nat
  roots : List Comment
  children : List (Nat × List Comment)
  deriving Repr, DecidableEq

/-- Append `c` to the `replies` list of parent id `p` (creating the entry if
`p` has no replies yet). -/
def appendChild : List (Nat × List Comment) → Nat → Comment → List (Nat × List Comment)
  | [], p, c => [(p, [c])]
  | (k, cs) :: rest, p, c =>
    if k = p then (k, cs ++ [c]) :: rest else (k, cs) :: appendChild rest p c

/-- One iteration of the python loop body. -/
def buildStep (st : BuildState) (c : Comment) : Except BuildError BuildState :=
  match c.parent with
  | none => .ok ⟨st.seen ++ [c.id], st.roots ++ [c], st.children⟩
  | some p =>
    if p ∈ st.seen ++ [c.id] then
      .ok ⟨st.seen ++ [c.id], st.roots, appendChild st.children p c⟩
    else .error (.orphanReference c.id p)

/-- The whole loop. -/
def buildAux : BuildState → List Comment → Except BuildError BuildState
  | st, [] => .ok st
  | st, c :: cs =>
    match buildStep st c with
    | .ok st2 => buildAux st2 cs
    | .error e => .error e

/-- `build comments` returns the root list and the per-parent reply lists, or
signals the orphan error. -/
def build (l : List Comment) : Except BuildError (List Comment × List (Nat × List Comment)) :=
  (buildAux ⟨[], [], []⟩ l).map (fun st => (st.roots, st.children))

/-- The reply list recorded for parent id `p`. -/
def childrenOf (ch : List (Nat × List Comment)) (p : Nat) : List Comment :=
  match ch.find? (fun e => e.1 == p) with
  | some e => e.2
  | none => []

/-- Pre-order flattening of the forest `build` returns, reading the nested
structure through the reply lists.  `fuel` bounds the recursion depth; one
unit is consumed per nesting level. -/
def flattenAux (ch : List (Nat × List Comment)) : Nat → List Comment → List Comment
  | 0, _ => []
  | fuel + 1, cs => (cs.map (fun c => c :: flattenAux ch fuel (childrenOf ch c.id))).flatten

/-! ## Reference forests (used to state and prove the round-trip property) -/

/-- A comment tree: the comment and its ordered reply subtrees. -/
inductive CTree where
  | node (c : Comment) (ts : List CTree)

/-- Pre-order flattening of a forest. -/
def forestFlat : List CTree → List Comment
  | [] => []
  | .node c ts :: rest => c :: (forestFlat ts ++ forestFlat rest)

/-- Depth (number of levels) of a forest. -/
def forestDepth : List CTree → Nat
  | [] => 0
  | .node _ ts :: rest => max (forestDepth ts + 1) (forestDepth rest)

/-- Root comments of a forest, in order. -/
def rootsOf : List CTree → List Comment
  | [] => []
  | .node c _ :: rest => c :: rootsOf rest

/-- Parent pointers agree with the nesting: every root of the forest has
parent id `pid`, recursively. -/
def ForestWF (pid : Option Nat) : List CTree → Prop
  | [] => True
  | .node c ts :: rest => c.parent = pid ∧ ForestWF (some c.id) ts ∧ ForestWF pid rest

/-- All ids of a forest, in pre-order. -/
def idsOf (ts : List CTree) : List Nat := (forestFlat ts).map Comment.id

/-- The reply lists the forest itself induces: for id `i`, the concatenation of
the root lists of the subforests hanging below every node labelled `i`. -/
def forestChildren (i : Nat) : List CTree → List Comment
  | [] => []
  | .node c ts :: rest =>
    (if c.id = i then rootsOf ts else []) ++ (forestChildren i ts ++ forestChildren i rest)

/-! ## The path-sorted precondition -/

/-- `isPre a b` : `a` is a prefix of `b`. -/
def isPre (a b : List Nat) : Prop := b.take a.length = a

instance (a b : List Nat) : Decidable (isPre a b) := by
  unfold isPre
  infer_instance

/-- Strict ascending order of two comments by lexicographic comparison of
their integer path sequences. -/
def pathLt (a b : Comment) : Prop := List.Lex (· < ·) a.path b.path

instance : DecidableRel pathLt := fun a b => by unfold pathLt; infer_instance

/-- The shape of a block of comments lying strictly below the path `pref`
whose top-level elements have parent id `pid`: sorted strictly ascending by
path, every path strictly extends `pref`, comments one level below `pref`
carry parent id `pid`, and every deeper comment's parent is the member of the
block whose path is its own path without the last segment. -/
def SortedBlock (pref : List Nat) (pid : Option Nat) (l : List Comment) : Prop :=
  List.Pairwise pathLt l ∧
  (∀ c ∈ l, isPre pref c.path ∧ pref.length < c.path.length) ∧
  (∀ c ∈ l, c.path.length = pref.length + 1 → c.parent = pid) ∧
  (∀ c ∈ l, pref.length + 1 < c.path.length →
    ∃ y ∈ l, c.parent = some y.id ∧ y.path = c.path.dropLast)

instance (pref : List Nat) (pid : Option Nat) (l : List Comment) :
    Decidable (SortedBlock pref pid l) := by
  unfold SortedBlock isPre
  infer_instance

/-- The full precondition of §4.2: the input is every comment of one post,
sorted ascending by path (lexicographic on the integer sequences), ids
pairwise distinct, with the §3 path/parent invariants. -/
def SortedWF (l : List Comment) : Prop :=
  SortedBlock [] none l ∧ (l.map Comment.id).Nodup

instance (l : List Comment) : Decidable (SortedWF l) := by
  unfold SortedWF
  infer_instance

/-- Every comment's declared parent is among the ids the loop has already
inserted into `comment_dict` when the comment is reached. -/
def ParentsSeen : List Nat → List Comment → Prop
  | _, [] => True
  | seen, c :: cs =>
    (∀ p, c.parent = some p → (p ∈ seen ∨ p = c.id)) ∧ ParentsSeen (seen ++ [c.id]) cs

/-! ## Path string encoding (Comment.path CharField, zero-padded segments)

A stored path is the segments printed in decimal, left-padded with zeros to
width 4, joined with character `.` (code 46); digits have codes 48 + digit.
The backing store compares these strings by pointwise character-code order. -/

/-- Decimal digits of `n`, most significant first (`fuel`-bounded so the
definition evaluates in the kernel; `fuel = n + 1` always suffices). -/
def decDigitsAux : Nat → Nat → List Nat
  | 0, _ => []
  | fuel + 1, n => if n < 10 then [n] else decDigitsAux fuel (n / 10) ++ [n % 10]

/-- Decimal digits of `n`, most significant first. -/
def decDigits (n : Nat) : List Nat := decDigitsAux (n + 1) n

/-- The digits of `n` left-padded with zeros to width 4 (python `f"{n:04d}"`:
numbers needing more than 4 digits keep all of them). -/
def pad4 (n : Nat) : List Nat := List.replicate (4 - (decDigits n).length) 0 ++ decDigits n

/-- Character codes of one zero-padded segment. -/
def encodeSeg (n : Nat) : List Nat := (pad4 n).map (fun d => 48 + d)

/-- Character codes of the stored path string: segments joined with `.`. -/
def pathStr : List Nat → List Nat
  | [] => []
  | s :: rest => encodeSeg s ++ (if rest.isEmpty then [] else 46 :: pathStr rest)

/-- Lexicographic order on character-code lists: how the backing store sorts
the path strings. -/
def strLt (a b : List Nat) : Prop := List.Lex (· < ·) a b

instance : DecidableRel strLt := fun a b => by unfold strLt; infer_instance

/-- Lexicographic order on integer segment sequences. -/
def segLt (a b : List Nat) : Prop := List.Lex (· < ·) a b

instance : DecidableRel segLt := fun a b => by unfold segLt; infer_instance

/-! ## Like Ledger (PostLike / like view)

The store enforces a UNIQUE constraint on (subject, user); `create` raises
`IntegrityError` exactly when the pair is already present, which the view
maps to the AlreadyLiked outcome. -/

inductive LikeResult where
  | liked
  | alreadyLiked
  deriving Repr, DecidableEq

inductive UnlikeResult where
  | unliked
  | notLiked
  deriving Repr, DecidableEq

/-- The like view: constrained insert of the (subject, user) pair. -/
def like (ledger : List (Nat × Nat)) (s u : Nat) : LikeResult × List (Nat × Nat) :=
  if (s, u) ∈ ledger then (.alreadyLiked, ledger) else (.liked, ledger ++ [(s, u)])

/-- Modelled from the spec: the unlike endpoint (its backend view body is not
among the sources; §4.3 specifies it deletes the matching record and reports
`NotLiked` when none exists). -/
def unlike (ledger : List (Nat × Nat)) (s u : Nat) : UnlikeResult × List (Nat × Nat) :=
  if (s, u) ∈ ledger then (.unliked, ledger.erase (s, u)) else (.notLiked, ledger)

/-! ## Karma Aggregator (leaderboard get)

The two grouped queries are modelled over the row lists in the order the
store yields them; groups appear in first-appearance order of the group key,
as the python dict insertion order then records. -/

/-- Author of the post a like row points at (the `post__author` join). -/
def postAuthor (posts : List Post) (pl : PostLike) : Option Nat :=
  (posts.find? (fun p => p.id == pl.postId)).map Post.author

/-- Author of the comment a like row points at (the `comment__author` join). -/
def commentAuthor (comments : List Comment) (cl : CommentLike) : Option Nat :=
  (comments.find? (fun c => c.id == cl.commentId)).map Comment.author

/-- Add one occurrence of key `k` to a count list (first-appearance order). -/
def bump : List (Nat × Nat) → Nat → List (Nat × Nat)
  | [], k => [(k, 1)]
  | (a, c) :: rest, k => if a = k then (a, c + 1) :: rest else (a, c) :: bump rest k

/-- Grouped `Count('id')`: keys in first-appearance order with their counts. -/
def groupCount (ks : List Nat) : List (Nat × Nat) := ks.foldl bump []

/-- `PostLike.objects.filter(created_at__gte=cutoff).values('post__author')
.annotate(karma=Count('id') * 5)`. -/
def postKarma (now window : Int) (posts : List Post) (postLikes : List PostLike) :
    List (Nat × Nat) :=
  let cutoff := now - window
  let rows := (postLikes.filter (fun pl => cutoff ≤ pl.createdAt)).filterMap (postAuthor posts)
  (groupCount rows).map (fun e => (e.1, e.2 * 5))

/-- `CommentLike.objects.filter(created_at__gte=cutoff)
.values('comment__author').annotate(karma=Count('id'))`. -/
def commentKarma (now window : Int) (comments : List Comment)
    (commentLikes : List CommentLike) : List (Nat × Nat) :=
  let cutoff := now - window
  let rows :=
    (commentLikes.filter (fun cl => cutoff ≤ cl.createdAt)).filterMap (commentAuthor comments)
  groupCount rows

/-- `karma_by_user.get(user_id, 0) + karma`, keeping dict insertion order. -/
def addKarma : List (Nat × Nat) → Nat × Nat → List (Nat × Nat)
  | [], e => [e]
  | (a, c) :: rest, e => if a = e.1 then (a, c + e.2) :: rest else (a, c) :: addKarma rest e

/-- The python merge of the two aggregates into `karma_by_user`. -/
def karmaByUser (pk ck : List (Nat × Nat)) : List (Nat × Nat) :=
  (pk ++ ck).foldl addKarma []

/-- Insert an entry into a descending-by-karma list after every entry of
karma at least its own: together with the left fold this realises the stable
sort `sorted(..., key=lambda x: x[1], reverse=True)`. -/
def insertByKarma (p : Nat × Nat) : List (Nat × Nat) → List (Nat × Nat)
  | [] => [p]
  | q :: rest => if p.2 ≤ q.2 then q :: insertByKarma p rest else p :: q :: rest

/-- Stable sort, descending by karma. -/
def sortKarmaDesc (l : List (Nat × Nat)) : List (Nat × Nat) :=
  l.foldl (fun acc p => insertByKarma p acc) []

/-- The leaderboard endpoint: weighted grouped counts, python merge, stable
descending sort, truncation to the top 5. -/
def leaderboard (now window : Int) (posts : List Post) (postLikes : List PostLike)
    (comments : List Comment) (commentLikes : List CommentLike) : List (Nat × Nat) :=
  (sortKarmaDesc (karmaByUser (postKarma now window posts postLikes)
    (commentKarma now window comments commentLikes))).take 5

/-- Value stored for key `u` in an association list (0 when absent). -/
def karmaOf (m : List (Nat × Nat)) (u : Nat) : Nat :=
  match m.find? (fun e => e.1 == u) with
  | some e => e.2
  | none => 0

/-- Sum of the values the association list holds at key `u`. -/
def totOf (m : List (Nat × Nat)) (u : Nat) : Nat :=
  ((m.filter (fun e => e.1 == u)).map Prod.snd).sum

/-! ## Path Allocator -/

/-- First segment of a path (0 for the empty path). -/
def firstSeg (p : List Nat) : Nat := p.headD 0

/-- Last segment of a path (0 for the empty path). -/
def lastSeg (p : List Nat) : Nat := p.getLastD 0

/-- Maximum of a list of naturals (0 when empty). -/
def natMax (l : List Nat) : Nat := l.foldr max 0

/-- Maximum first-segment value already used for the post. -/
def maxRootSeg (existing : List Comment) : Nat :=
  natMax (existing.map (fun c => firstSeg c.path))

/-- Maximum last-segment value among the existing direct children of parent
id `pid`. -/
def maxChildSeg (existing : List Comment) (pid : Nat) : Nat :=
  natMax ((existing.filter (fun c => c.parent == some pid)).map (fun c => lastSeg c.path))

/-- Modelled from the spec: the Path Allocator (the backend comment-creation
code is not among the sources; §4.1 specifies root paths as one more than the
maximum first segment used for the post, child paths as the parent path plus
one more than the maximum last segment among the parent's direct children). -/
def allocate (existing : List Comment) (parent : Option Comment) : List Nat :=
  match parent with
  | none => [maxRootSeg existing + 1]
  | some par => par.path ++ [maxChildSeg existing par.id + 1]

/-- The depth column stored alongside a path. -/
def storedDepth (path : List Nat) : Nat := path.length - 1

/-! ## Frontend like toggle (Post.handleLike / CommentItem.handleLike) -/

/-- The two component state cells the toggle touches. -/
structure LikeState where
  isLiked : Bool
  likeCount : Int
  deriving Repr, DecidableEq

/-- `Post.handleLike`: early return when logged out; on API success adjust
the count and flip the flag; on API rejection the catch block changes
nothing. -/
def postHandleLike (loggedIn : Bool) (st : LikeState) (apiOk : Bool) : LikeState :=
  if !loggedIn then st
  else if apiOk then
    { isLiked := !st.isLiked,
      likeCount := if st.isLiked then st.likeCount - 1 else st.likeCount + 1 }
  else st

/-- `CommentItem.handleLike`: same logic as the post toggle. -/
def commentHandleLike (loggedIn : Bool) (st : LikeState) (apiOk : Bool) : LikeState :=
  if !loggedIn then st
  else if apiOk then
    { isLiked := !st.isLiked,
      likeCount := if st.isLiked then st.likeCount - 1 else st.likeCount + 1 }
  else st

/-! ## Frontend comment rendering (CommentList / CommentItem) -/

/-- Rendering of a comment forest at nesting depth `d`: for each comment, the
entry (id, depth passed to the item, whether the Reply control is rendered:
`user && depth < 5`); replies are rendered at `depth + 1`. -/
def renderForest (loggedIn : Bool) : Nat → List CTree → List (Nat × Nat × Bool)
  | _, [] => []
  | d, .node c ts :: rest =>
    (c.id, d, loggedIn && decide (d < 5)) ::
      (renderForest loggedIn (d + 1) ts ++ renderForest loggedIn d rest)

/-- `CommentList` renders the root comments at depth 0. -/
def renderAll (loggedIn : Bool) (ts : List CTree) : List (Nat × Nat × Bool) :=
  renderForest loggedIn 0 ts


end RedditClone

namespace RedditClone

/-! # Theorems -/

/-! ## General lemmas on lexicographic list order and prefixes -/

theorem isPre_iff {a b : List Nat} : isPre a b ↔ ∃ t, b = a ++ t := by
  constructor
  · intro h
    refine ⟨b.drop a.length, ?_⟩
    conv_lhs => rw [← List.take_append_drop a.length b]
    rw [h]
  · rintro ⟨t, rfl⟩
    unfold isPre
    exact List.take_left a t

theorem isPre_trans {a b c : List Nat} (h1 : isPre a b) (h2 : isPre b c) : isPre a c := by
  rw [isPre_iff] at *
  obtain ⟨t1, rfl⟩ := h1
  obtain ⟨t2, rfl⟩ := h2
  exact ⟨t1 ++ t2, by simp⟩

theorem isPre_length {a b : List Nat} (h : isPre a b) : a.length ≤ b.length := by
  rw [isPre_iff] at h
  obtain ⟨t, rfl⟩ := h
  simp

theorem isPre_eq_of_length {a b : List Nat} (h : isPre a b) (hl : b.length ≤ a.length) :
    a = b := by
  rw [isPre_iff] at h
  obtain ⟨t, rfl⟩ := h
  have : t = [] := by
    have := List.length_append a t
    exact List.eq_nil_of_length_eq_zero (by omega)
  simp [this]

theorem lexIrrefl : ∀ (p : List Nat), ¬ segLt p p := by
  intro p
  induction p with
  | nil => intro h; cases h
  | cons a t ih =>
    intro h
    cases h with
    | cons h => exact ih h
    | rel h => exact Nat.lt_irrefl _ h

theorem lexAsymm : ∀ (p q : List Nat), segLt p q → segLt q p → False := by
  intro p
  induction p with
  | nil =>
    intro q h1 h2
    cases h2
  | cons a t ih =>
    intro q h1 h2
    cases h1 with
    | rel h =>
      cases h2 with
      | rel h2 => omega
      | cons h2 => exact Nat.lt_irrefl _ h
    | cons h =>
      cases h2 with
      | rel h2 => exact Nat.lt_irrefl _ h2
      | cons h2 => exact ih _ h h2

theorem lexOfApp : ∀ (p t : List Nat), t ≠ [] → segLt p (p ++ t) := by
  intro p
  induction p with
  | nil =>
    intro t ht
    cases t with
    | nil => exact absurd rfl ht
    | cons a t2 => exact List.Lex.nil
  | cons a p2 ih =>
    intro t ht
    exact List.Lex.cons (ih t ht)

theorem lexConsIff {a b : Nat} {l1 l2 : List Nat} :
    segLt (a :: l1) (b :: l2) ↔ a < b ∨ (a = b ∧ segLt l1 l2) := by
  unfold segLt
  constructor
  · intro h
    cases h with
    | rel h => exact Or.inl h
    | cons h => exact Or.inr ⟨rfl, h⟩
  · rintro (h | ⟨rfl, h⟩)
    · exact List.Lex.rel h
    · exact List.Lex.cons h

theorem lexNilIff {l : List Nat} : segLt [] l ↔ l ≠ [] := by
  unfold segLt
  constructor
  · intro h
    cases h
    simp
  · intro h
    cases l with
    | nil => exact absurd rfl h
    | cons a t => exact List.Lex.nil

theorem lexBetweenPre : ∀ (p x z : List Nat), segLt p x → segLt x z → isPre p z → isPre p x := by
  intro p
  induction p with
  | nil =>
    intro x z _ _ _
    rw [isPre_iff]
    exact ⟨x, rfl⟩
  | cons a p2 ih =>
    intro x z h1 h2 hpre
    rw [isPre_iff] at hpre
    obtain ⟨t, rfl⟩ := hpre
    cases x with
    | nil => cases h1
    | cons b x2 =>
      rw [List.cons_append] at h2
      rw [lexConsIff] at h1 h2
      rcases h1 with h1 | ⟨rfl, h1⟩
      · rcases h2 with h2 | ⟨h2, _⟩
        · omega
        · omega
      · rcases h2 with h2 | ⟨_, h2⟩
        · omega
        · have := ih x2 (p2 ++ t) h1 h2 (isPre_iff.mpr ⟨t, rfl⟩)
          rw [isPre_iff] at this
          obtain ⟨t2, rfl⟩ := this
          exact isPre_iff.mpr ⟨t2, rfl⟩

theorem lexAppendIff : ∀ (x y u v : List Nat), x.length = y.length →
    (segLt (x ++ u) (y ++ v) ↔ segLt x y ∨ (x = y ∧ segLt u v)) := by
  intro x
  induction x with
  | nil =>
    intro y u v hlen
    cases y with
    | nil =>
      constructor
      · intro h
        exact Or.inr ⟨rfl, h⟩
      · rintro (h | ⟨-, h⟩)
        · cases h
        · exact h
    | cons b y2 => simp at hlen
  | cons a x2 ih =>
    intro y u v hlen
    cases y with
    | nil => simp at hlen
    | cons b y2 =>
      simp only [List.cons_append]
      rw [lexConsIff, lexConsIff, ih y2 u v (by simpa using hlen)]
      constructor
      · rintro (h | ⟨rfl, h | ⟨rfl, h⟩⟩)
        · exact Or.inl (Or.inl h)
        · exact Or.inl (Or.inr ⟨rfl, h⟩)
        · exact Or.inr ⟨rfl, h⟩
      · rintro ((h | ⟨rfl, h⟩) | ⟨heq, h⟩)
        · exact Or.inl h
        · exact Or.inr ⟨rfl, Or.inl h⟩
        · rw [List.cons.injEq] at heq
          exact Or.inr ⟨heq.1, Or.inr ⟨heq.2, h⟩⟩

/-! ## C9: frontend like toggle leaves state unchanged on API rejection -/

/-- C9.  In `Post.handleLike` and `CommentItem.handleLike`, a rejected API
call leaves the displayed count and liked flag unchanged (there is no
optimistic update to roll back); a successful call flips the flag and moves
the count by exactly one in the corresponding direction. -/
theorem frontend_like_toggle_behavior : ∀ (st : LikeState) (loggedIn : Bool),
    (postHandleLike loggedIn st false = st ∧ commentHandleLike loggedIn st false = st) ∧
    ((postHandleLike true st true).isLiked = !st.isLiked ∧
     (postHandleLike true st true).likeCount =
       (if st.isLiked then st.likeCount - 1 else st.likeCount + 1) ∧
     (commentHandleLike true st true).isLiked = !st.isLiked ∧
     (commentHandleLike true st true).likeCount =
       (if st.isLiked then st.likeCount - 1 else st.likeCount + 1)) := by
  intro st loggedIn
  cases loggedIn <;> simp [postHandleLike, commentHandleLike]

/-! ## C10: Reply control guard and depth propagation -/

theorem renderForest_entry (loggedIn : Bool) :
    ∀ (d : Nat) (ts : List CTree), ∀ e ∈ renderForest loggedIn d ts,
      d ≤ e.2.1 ∧ e.2.2 = (loggedIn && decide (e.2.1 < 5)) := by
  intro d ts
  induction ts using forestFlat.induct generalizing d with
  | case1 => intro e he; simp [renderForest] at he
  | case2 c ts rest ih1 ih2 =>
    intro e he
    simp only [renderForest, List.mem_cons, List.mem_append] at he
    rcases he with rfl | he | he
    · exact ⟨Nat.le_refl _, rfl⟩
    · have := ih1 (d + 1) e he
      exact ⟨by omega, this.2⟩
    · exact ih2 d e he

/-- C10.  The comment UI renders the Reply control only when a user is logged
in and the render depth is under 5; each nesting level is rendered at depth
one greater than its parent, starting from 0 at the roots, so no reply can be
initiated on a comment rendered at depth 5 or more. -/
theorem reply_guard_depth : ∀ (loggedIn : Bool) (ts : List CTree),
    (∀ e ∈ renderAll loggedIn ts, e.2.2 = (loggedIn && decide (e.2.1 < 5))) ∧
    (∀ e ∈ renderAll loggedIn ts, e.2.2 = true → loggedIn = true ∧ e.2.1 < 5) ∧
    (∀ d, ∀ e ∈ renderForest loggedIn d ts, 5 ≤ e.2.1 → e.2.2 = false) ∧
    (∀ d c ts2 rest, renderForest loggedIn d (.node c ts2 :: rest) =
      (c.id, d, loggedIn && decide (d < 5)) ::
        (renderForest loggedIn (d + 1) ts2 ++ renderForest loggedIn d rest)) := by
  intro loggedIn ts
  refine ⟨?_, ?_, ?_, ?_⟩
  · intro e he
    exact (renderForest_entry loggedIn 0 ts e he).2
  · intro e he htrue
    have h := (renderForest_entry loggedIn 0 ts e he).2
    rw [htrue] at h
    constructor
    · cases loggedIn
      · simp at h
      · rfl
    · by_contra hlt
      simp [decide_eq_false hlt] at h
  · intro d e he h5
    have h := (renderForest_entry loggedIn d ts e he).2
    have : ¬ (e.2.1 < 5) := by omega
    simp [decide_eq_false this] at h
    exact h
  · intro d c ts2 rest
    simp [renderForest]

/-- Witness for C10 at a concrete one-node forest rendered at depth 5. -/
theorem reply_guard_depth_witness :
    ((7, 5, false) : Nat × Nat × Bool).2.2 = false :=
  (reply_guard_depth true [.node ⟨7, 1, none, [1]⟩ []]).2.2.1 5 (7, 5, false)
    (by simp [renderForest]) (by norm_num)

/-! ## C3: like / unlike protocol on the ledger -/

/-- C3.  For a ledger satisfying the uniqueness invariant: a second `like` of
the same (subject, user) pair returns AlreadyLiked and leaves the ledger as
it was, the pair then being recorded exactly once; and after `like` then
`unlike`, a second `unlike` returns NotLiked.  (The unlike endpoint is
modelled from §4.3 of the spec.) -/
theorem like_unlike_ledger_protocol (L : List (Nat × Nat)) (s u : Nat)
    (hinv : L.count (s, u) ≤ 1) :
    (like (like L s u).2 s u).1 = .alreadyLiked ∧
    (like (like L s u).2 s u).2 = (like L s u).2 ∧
    (like L s u).2.count (s, u) = 1 ∧
    (unlike (unlike (like L s u).2 s u).2 s u).1 = .notLiked := by
  suffices h : ∀ (M : List (Nat × Nat)), M.count (s, u) = 1 → (s, u) ∈ M →
      (like M s u).1 = .alreadyLiked ∧ (like M s u).2 = M ∧
      (unlike (unlike M s u).2 s u).1 = .notLiked by
    have key : (like L s u).2.count (s, u) = 1 ∧ (s, u) ∈ (like L s u).2 := by
      by_cases hm : (s, u) ∈ L
      · have h0 : 0 < L.count (s, u) := List.count_pos_iff.mpr hm
        have e1 : like L s u = (.alreadyLiked, L) := by rw [like, if_pos hm]
        rw [e1]
        exact ⟨(by omega : L.count (s, u) = 1), hm⟩
      · have h0 : L.count (s, u) = 0 := List.count_eq_zero.mpr hm
        have e1 : like L s u = (.liked, L ++ [(s, u)]) := by rw [like, if_neg hm]
        rw [e1]
        constructor
        · show (L ++ [(s, u)]).count (s, u) = 1
          rw [List.count_append, h0]
          simp
        · show (s, u) ∈ L ++ [(s, u)]
          simp
    obtain ⟨h1, h2⟩ := h (like L s u).2 key.1 key.2
    exact ⟨h1, h2.1, key.1, h2.2⟩
  intro M hcount hmem
  have e2 : like M s u = (.alreadyLiked, M) := by rw [like, if_pos hmem]
  have e3 : unlike M s u = (.unliked, M.erase (s, u)) := by rw [unlike, if_pos hmem]
  have herase : (M.erase (s, u)).count (s, u) = 0 := by
    rw [List.count_erase_self, hcount]
  have hnm : (s, u) ∉ M.erase (s, u) := by
    rw [← List.count_eq_zero]
    exact herase
  have e4 : unlike (M.erase (s, u)) s u = (.notLiked, M.erase (s, u)) := by
    rw [unlike, if_neg hnm]
  rw [e2, e3]
  exact ⟨rfl, rfl, by rw [e4]⟩

/-- Witness for C3 on the empty ledger and the pair (1, 2). -/
theorem like_unlike_ledger_protocol_witness :
    ([] : List (Nat × Nat)).count (1, 2) ≤ 1 ∧
    ((like (like [] 1 2).2 1 2).1 = .alreadyLiked ∧
     (like (like [] 1 2).2 1 2).2 = (like [] 1 2).2 ∧
     (like [] 1 2).2.count (1, 2) = 1 ∧
     (unlike (unlike (like [] 1 2).2 1 2).2 1 2).1 = .notLiked) :=
  ⟨by decide, like_unlike_ledger_protocol [] 1 2 (by decide)⟩

/-! ## C8: the path allocator -/

theorem le_natMax {l : List Nat} {x : Nat} (h : x ∈ l) : x ≤ natMax l := by
  induction l with
  | nil => cases h
  | cons a t ih =>
    rcases List.mem_cons.mp h with rfl | h
    · exact Nat.le_max_left _ _
    · exact Nat.le_trans (ih h) (Nat.le_max_right _ _)

/-- C8.  A root allocation yields the single segment one greater than the
maximum first segment used for the post (so 1 on an empty post); a child
allocation appends to the parent path one segment greater than every last
segment of the parent's existing direct children (1 when there are none);
the stored depth is the path length minus one. -/
theorem allocate_path_spec : ∀ (existing : List Comment) (par : Comment),
    allocate existing none = [maxRootSeg existing + 1] ∧
    (∀ c ∈ existing, firstSeg c.path < firstSeg (allocate existing none)) ∧
    allocate [] none = [1] ∧
    storedDepth (allocate existing none) = 0 ∧
    allocate existing (some par) = par.path ++ [maxChildSeg existing par.id + 1] ∧
    (∀ c ∈ existing, c.parent = some par.id →
      lastSeg c.path < lastSeg (allocate existing (some par))) ∧
    ((∀ c ∈ existing, c.parent ≠ some par.id) →
      allocate existing (some par) = par.path ++ [1]) ∧
    storedDepth (allocate existing (some par)) = par.path.length := by
  intro existing par
  refine ⟨rfl, ?_, rfl, rfl, rfl, ?_, ?_, ?_⟩
  · intro c hc
    have h1 : firstSeg c.path ≤ maxRootSeg existing :=
      le_natMax (List.mem_map.mpr ⟨c, hc, rfl⟩)
    have h2 : firstSeg (allocate existing none) = maxRootSeg existing + 1 := rfl
    omega
  · intro c hc hpar
    have hmem : lastSeg c.path ∈
        (existing.filter (fun c => c.parent == some par.id)).map (fun c => lastSeg c.path) :=
      List.mem_map.mpr ⟨c, List.mem_filter.mpr ⟨hc, by simp [hpar]⟩, rfl⟩
    have h1 : lastSeg c.path ≤ maxChildSeg existing par.id := le_natMax hmem
    have h2 : lastSeg (allocate existing (some par)) = maxChildSeg existing par.id + 1 := by
      show (par.path ++ [maxChildSeg existing par.id + 1]).getLastD 0 = _
      exact List.getLastD_concat _ _ _
    omega
  · intro hnone
    have : existing.filter (fun c => c.parent == some par.id) = [] := by
      rw [List.filter_eq_nil_iff]
      intro c hc
      simp [hnone c hc]
    simp [allocate, maxChildSeg, this, natMax]
  · simp [allocate, storedDepth]

/-- Witness for C8: child allocation under a parent with no children. -/
theorem allocate_path_spec_witness :
    allocate [] (some ⟨1, 1, none, [1]⟩) = [1] ++ [1] :=
  (allocate_path_spec [] ⟨1, 1, none, [1]⟩).2.2.2.2.2.2.1 (by intro c hc; cases hc)

/-! ## C6 counterexample: the string order diverges at five-digit segments -/

/-- C6 counterexample.  The stored path strings for the single-segment paths
[9999] and [10000] compare in the opposite order to their integer segment
sequences: "9999" sorts after "10000", the classic anomaly reappearing one
digit past the zero-pad width. -/
theorem path_string_order_counterexample :
    ¬ (strLt (pathStr [9999]) (pathStr [10000]) ↔ segLt [9999] [10000]) := by
  decide

/-! ## C6 amended: within the zero-pad capacity the two orders coincide -/

theorem strLt_eq_segLt : strLt = segLt := rfl

theorem lexNotNilRight : ∀ (x : List Nat), ¬ segLt x [] := by
  intro x h
  cases h

theorem lexNilNilIff : segLt ([] : List Nat) [] ↔ False := by
  constructor
  · intro h
    cases h
  · intro h
    exact absurd h not_false

theorem decDigitsAux_fuelIrrel : ∀ (n f1 f2 : Nat), n < f1 → n < f2 →
    decDigitsAux f1 n = decDigitsAux f2 n := by
  intro n
  induction n using Nat.strong_induction_on with
  | _ n ih =>
    intro f1 f2 h1 h2
    cases f1 with
    | zero => omega
    | succ g1 =>
      cases f2 with
      | zero => omega
      | succ g2 =>
        simp only [decDigitsAux]
        by_cases h10 : n < 10
        · rw [if_pos h10, if_pos h10]
        · rw [if_neg h10, if_neg h10]
          have hd : n / 10 < n := Nat.div_lt_self (by omega) (by omega)
          rw [ih (n / 10) hd g1 g2 (by omega) (by omega)]

theorem decDigits_closed1 {n : Nat} (h : n < 10) : decDigits n = [n] := by
  unfold decDigits
  simp only [decDigitsAux]
  rw [if_pos h]

theorem decDigits_closed2 {n : Nat} (h1 : 10 ≤ n) (h2 : n < 100) :
    decDigits n = [n / 10, n % 10] := by
  unfold decDigits
  simp only [decDigitsAux]
  rw [if_neg (by omega)]
  rw [decDigitsAux_fuelIrrel (n / 10) n (n / 10 + 1) (by omega) (by omega)]
  rw [show decDigitsAux (n / 10 + 1) (n / 10) = [n / 10] from decDigits_closed1 (by omega)]
  rfl

theorem decDigits_closed3 {n : Nat} (h1 : 100 ≤ n) (h2 : n < 1000) :
    decDigits n = [n / 100, n / 10 % 10, n % 10] := by
  unfold decDigits
  simp only [decDigitsAux]
  rw [if_neg (by omega)]
  rw [decDigitsAux_fuelIrrel (n / 10) n (n / 10 + 1) (by omega) (by omega)]
  rw [show decDigitsAux (n / 10 + 1) (n / 10) = [n / 10 / 10, n / 10 % 10] from
    decDigits_closed2 (by omega) (by omega)]
  have e : n / 10 / 10 = n / 100 := by omega
  rw [e]
  rfl

theorem decDigits_closed4 {n : Nat} (h1 : 1000 ≤ n) (h2 : n < 10000) :
    decDigits n = [n / 1000, n / 100 % 10, n / 10 % 10, n % 10] := by
  unfold decDigits
  simp only [decDigitsAux]
  rw [if_neg (by omega)]
  rw [decDigitsAux_fuelIrrel (n / 10) n (n / 10 + 1) (by omega) (by omega)]
  rw [show decDigitsAux (n / 10 + 1) (n / 10) =
      [n / 10 / 100, n / 10 / 10 % 10, n / 10 % 10] from
    decDigits_closed3 (by omega) (by omega)]
  have e1 : n / 10 / 100 = n / 1000 := by omega
  have e2 : n / 10 / 10 = n / 100 := by omega
  rw [e1, e2]
  rfl

theorem pad4_closed {n : Nat} (h : n < 10000) :
    pad4 n = [n / 1000, n / 100 % 10, n / 10 % 10, n % 10] := by
  by_cases c1 : n < 10
  · have e1 : n / 1000 = 0 := by omega
    have e2 : n / 100 % 10 = 0 := by omega
    have e3 : n / 10 % 10 = 0 := by omega
    have e4 : n % 10 = n := by omega
    rw [e1, e2, e3, e4, pad4, decDigits_closed1 c1]
    rfl
  · by_cases c2 : n < 100
    · have e1 : n / 1000 = 0 := by omega
      have e2 : n / 100 % 10 = 0 := by omega
      have e3 : n / 10 % 10 = n / 10 := by omega
      rw [e1, e2, e3, pad4, decDigits_closed2 (by omega) c2]
      rfl
    · by_cases c3 : n < 1000
      · have e1 : n / 1000 = 0 := by omega
        have e2 : n / 100 % 10 = n / 100 := by omega
        rw [e1, e2, pad4, decDigits_closed3 (by omega) c3]
        rfl
      · rw [pad4, decDigits_closed4 (by omega) h]
        rfl

theorem encodeSeg_closed {n : Nat} (h : n < 10000) :
    encodeSeg n = [48 + n / 1000, 48 + n / 100 % 10, 48 + n / 10 % 10, 48 + n % 10] := by
  rw [encodeSeg, pad4_closed h]
  rfl

theorem encodeSeg_len {n : Nat} (h : n < 10000) : (encodeSeg n).length = 4 := by
  rw [encodeSeg_closed h]
  rfl

theorem encodeSeg_lt_iff {a b : Nat} (ha : a < 10000) (hb : b < 10000) :
    segLt (encodeSeg a) (encodeSeg b) ↔ a < b := by
  rw [encodeSeg_closed ha, encodeSeg_closed hb]
  simp only [lexConsIff, lexNilNilIff, and_false, or_false]
  omega

theorem encodeSeg_inj {a b : Nat} (ha : a < 10000) (hb : b < 10000) :
    encodeSeg a = encodeSeg b ↔ a = b := by
  rw [encodeSeg_closed ha, encodeSeg_closed hb]
  simp only [List.cons.injEq, and_true]
  omega

/-- C6 amended.  As long as every segment value stays below 10000 (so its
decimal form fits the 4-character zero-pad), the backing-store string order
of two stored paths coincides with lexicographic order on their integer
segment sequences; segment values of 10000 or more reorder (see the
counterexample). -/
theorem path_string_order_agrees_below_10000 : ∀ (p q : List Nat),
    (∀ s ∈ p, s < 10000) → (∀ s ∈ q, s < 10000) →
    (strLt (pathStr p) (pathStr q) ↔ segLt p q) := by
  intro p
  induction p with
  | nil =>
    intro q hp hq
    cases q with
    | nil =>
      rw [strLt_eq_segLt]
      exact Iff.rfl
    | cons b q2 =>
      rw [strLt_eq_segLt]
      constructor
      · intro _
        exact lexNilIff.mpr (by simp)
      · intro _
        refine lexNilIff.mpr ?_
        have hb : b < 10000 := hq b (by simp)
        simp only [pathStr]
        intro hcon
        have := congrArg List.length hcon
        simp [encodeSeg_len hb] at this
  | cons a p2 ih =>
    intro q hp hq
    have ha : a < 10000 := hp a (by simp)
    cases q with
    | nil =>
      rw [strLt_eq_segLt]
      constructor
      · intro h
        exact absurd h (lexNotNilRight _)
      · intro h
        exact absurd h (lexNotNilRight _)
    | cons b q2 =>
      have hb : b < 10000 := hq b (by simp)
      rw [strLt_eq_segLt]
      simp only [pathStr]
      rw [lexAppendIff _ _ _ _ (by rw [encodeSeg_len ha, encodeSeg_len hb])]
      rw [encodeSeg_lt_iff ha hb, encodeSeg_inj ha hb, lexConsIff]
      have huv : segLt (if p2.isEmpty then [] else 46 :: pathStr p2)
          (if q2.isEmpty then [] else 46 :: pathStr q2) ↔ segLt p2 q2 := by
        cases p2 with
        | nil =>
          cases q2 with
          | nil => simp [List.isEmpty]
          | cons c q3 =>
            simp only [List.isEmpty_nil, List.isEmpty_cons, if_pos, if_neg Bool.false_ne_true]
            constructor
            · intro _
              exact lexNilIff.mpr (by simp)
            · intro _
              exact lexNilIff.mpr (by simp)
        | cons c p3 =>
          cases q2 with
          | nil =>
            simp only [List.isEmpty_nil, List.isEmpty_cons, if_pos, if_neg Bool.false_ne_true]
            constructor
            · intro h
              exact absurd h (lexNotNilRight _)
            · intro h
              exact absurd h (lexNotNilRight _)
          | cons d q3 =>
            simp only [List.isEmpty_cons, if_neg Bool.false_ne_true]
            rw [lexConsIff]
            simp only [Nat.lt_irrefl, false_or, true_and]
            exact ih (d :: q3) (fun s hs => hp s (List.mem_cons_of_mem a hs))
              (fun s hs => hq s (List.mem_cons_of_mem b hs))
      rw [huv]

/-- Witness for the amended C6 at the two-comment paths [2] and [10]. -/
theorem path_string_order_agrees_below_10000_witness :
    strLt (pathStr [2]) (pathStr [10]) ↔ segLt [2] [10] :=
  path_string_order_agrees_below_10000 [2] [10] (by decide) (by decide)

/-! ## Association-list lemmas for the karma aggregation -/

theorem totOf_nil (u : Nat) : totOf [] u = 0 := rfl

theorem totOf_cons (e : Nat × Nat) (rest : List (Nat × Nat)) (u : Nat) :
    totOf (e :: rest) u = (if e.1 = u then e.2 else 0) + totOf rest u := by
  rcases e with ⟨a, c⟩
  by_cases h : a = u
  · unfold totOf
    simp [List.filter_cons, h]
  · unfold totOf
    simp [List.filter_cons, h]

theorem totOf_append (m1 m2 : List (Nat × Nat)) (u : Nat) :
    totOf (m1 ++ m2) u = totOf m1 u + totOf m2 u := by
  unfold totOf
  simp [List.filter_append]

theorem totOf_addKarma (m : List (Nat × Nat)) (e : Nat × Nat) (u : Nat) :
    totOf (addKarma m e) u = totOf m u + (if e.1 = u then e.2 else 0) := by
  induction m with
  | nil =>
    rw [show addKarma [] e = [e] from rfl, totOf_cons]
    simp [totOf_nil]
  | cons q rest ih =>
    rcases q with ⟨a, c⟩
    by_cases h : a = e.1
    · rw [show addKarma ((a, c) :: rest) e = (a, c + e.2) :: rest from by
        rw [addKarma, if_pos h]]
      rw [totOf_cons, totOf_cons]
      by_cases h2 : a = u
      · rw [if_pos h2, if_pos h2, if_pos (h ▸ h2)]
        omega
      · rw [if_neg h2, if_neg h2, if_neg (fun he => h2 (h.trans he))]
        omega
    · rw [show addKarma ((a, c) :: rest) e = (a, c) :: addKarma rest e from by
        rw [addKarma, if_neg h]]
      rw [totOf_cons, totOf_cons, ih]
      omega

theorem totOf_foldl_addKarma (items : List (Nat × Nat)) :
    ∀ (acc : List (Nat × Nat)) (u : Nat),
      totOf (items.foldl addKarma acc) u = totOf acc u + totOf items u := by
  induction items with
  | nil =>
    intro acc u
    rw [List.foldl_nil]
    simp [totOf_nil]
  | cons e rest ih =>
    intro acc u
    rw [List.foldl_cons, ih, totOf_addKarma, totOf_cons]
    omega

theorem totOf_bump (m : List (Nat × Nat)) (k u : Nat) :
    totOf (bump m k) u = totOf m u + (if k = u then 1 else 0) := by
  induction m with
  | nil =>
    rw [show bump [] k = [(k, 1)] from rfl, totOf_cons]
    simp [totOf_nil]
  | cons q rest ih =>
    rcases q with ⟨a, c⟩
    by_cases h : a = k
    · rw [show bump ((a, c) :: rest) k = (a, c + 1) :: rest from by rw [bump, if_pos h]]
      rw [totOf_cons, totOf_cons]
      by_cases h2 : a = u
      · rw [if_pos h2, if_pos h2, if_pos (h ▸ h2)]
        omega
      · rw [if_neg h2, if_neg h2, if_neg (fun he => h2 (h.trans he))]
        omega
    · rw [show bump ((a, c) :: rest) k = (a, c) :: bump rest k from by rw [bump, if_neg h]]
      rw [totOf_cons, totOf_cons, ih]
      omega

theorem totOf_foldl_bump (ks : List Nat) :
    ∀ (acc : List (Nat × Nat)) (u : Nat),
      totOf (ks.foldl bump acc) u = totOf acc u + ks.count u := by
  induction ks with
  | nil =>
    intro acc u
    rw [List.foldl_nil, List.count_nil]
    omega
  | cons k rest ih =>
    intro acc u
    rw [List.foldl_cons, ih, totOf_bump, List.count_cons]
    by_cases h : k = u
    · rw [if_pos h, if_pos (by simp [h])]
      omega
    · rw [if_neg h, if_neg (by simp; omega)]
      omega

theorem totOf_groupCount (ks : List Nat) (u : Nat) :
    totOf (groupCount ks) u = ks.count u := by
  rw [groupCount, totOf_foldl_bump, totOf_nil]
  omega

theorem totOf_map_mul5 (m : List (Nat × Nat)) (u : Nat) :
    totOf (m.map (fun e => (e.1, e.2 * 5))) u = totOf m u * 5 := by
  induction m with
  | nil => rfl
  | cons e rest ih =>
    rw [List.map_cons, totOf_cons, totOf_cons, ih]
    by_cases h : e.1 = u
    · rw [if_pos h, if_pos h]
      ring
    · rw [if_neg h, if_neg h]
      ring

theorem totOf_eq_zero_of_not_mem {m : List (Nat × Nat)} {u : Nat}
    (h : u ∉ m.map Prod.fst) : totOf m u = 0 := by
  induction m with
  | nil => rfl
  | cons e rest ih =>
    rw [List.map_cons] at h
    rw [totOf_cons, if_neg (fun he => h (by rw [he]; exact List.mem_cons_self _ _)),
      ih (fun hm => h (List.mem_cons_of_mem _ hm))]

theorem karmaOf_eq_totOf (m : List (Nat × Nat)) (u : Nat)
    (h : (m.map Prod.fst).Nodup) : karmaOf m u = totOf m u := by
  induction m with
  | nil => rfl
  | cons e rest ih =>
    rw [List.map_cons, List.nodup_cons] at h
    by_cases he : e.1 = u
    · rw [show karmaOf (e :: rest) u = e.2 from by
        rw [karmaOf, List.find?_cons_of_pos _ (by simp [he])]]
      rw [totOf_cons, if_pos he, totOf_eq_zero_of_not_mem (he ▸ h.1)]
      omega
    · rw [show karmaOf (e :: rest) u = karmaOf rest u from by
        rw [karmaOf, List.find?_cons_of_neg _ (by simp [he]), karmaOf]]
      rw [totOf_cons, if_neg he, ih h.2]
      omega

theorem mem_map_fst_addKarma (m : List (Nat × Nat)) (e : Nat × Nat) (x : Nat) :
    x ∈ (addKarma m e).map Prod.fst ↔ (x ∈ m.map Prod.fst ∨ x = e.1) := by
  induction m with
  | nil => simp [addKarma, eq_comm]
  | cons q rest ih =>
    rcases q with ⟨a, c⟩
    by_cases h : a = e.1
    · rw [show addKarma ((a, c) :: rest) e = (a, c + e.2) :: rest from by
        rw [addKarma, if_pos h]]
      subst h
      simp only [List.map_cons, List.mem_cons]
      constructor
      · rintro (rfl | hx)
        · exact Or.inl (Or.inl rfl)
        · exact Or.inl (Or.inr hx)
      · rintro ((rfl | hx) | rfl)
        · exact Or.inl rfl
        · exact Or.inr hx
        · exact Or.inl rfl
    · rw [show addKarma ((a, c) :: rest) e = (a, c) :: addKarma rest e from by
        rw [addKarma, if_neg h]]
      simp only [List.map_cons, List.mem_cons, ih]
      tauto

theorem nodup_map_fst_addKarma (m : List (Nat × Nat)) (e : Nat × Nat)
    (h : (m.map Prod.fst).Nodup) : ((addKarma m e).map Prod.fst).Nodup := by
  induction m with
  | nil => simp [addKarma]
  | cons q rest ih =>
    rcases q with ⟨a, c⟩
    rw [List.map_cons, List.nodup_cons] at h
    by_cases hae : a = e.1
    · rw [show addKarma ((a, c) :: rest) e = (a, c + e.2) :: rest from by
        rw [addKarma, if_pos hae]]
      rw [List.map_cons, List.nodup_cons]
      exact ⟨h.1, h.2⟩
    · rw [show addKarma ((a, c) :: rest) e = (a, c) :: addKarma rest e from by
        rw [addKarma, if_neg hae]]
      rw [List.map_cons, List.nodup_cons]
      refine ⟨?_, ih h.2⟩
      rw [mem_map_fst_addKarma]
      rintro (hx | rfl)
      · exact h.1 hx
      · exact hae rfl

theorem nodup_map_fst_foldl_addKarma (items : List (Nat × Nat)) :
    ∀ (acc : List (Nat × Nat)), (acc.map Prod.fst).Nodup →
      ((items.foldl addKarma acc).map Prod.fst).Nodup := by
  induction items with
  | nil => intro acc h; exact h
  | cons e rest ih =>
    intro acc h
    rw [List.foldl_cons]
    exact ih _ (nodup_map_fst_addKarma _ _ h)

theorem nodup_map_fst_karmaByUser (pk ck : List (Nat × Nat)) :
    ((karmaByUser pk ck).map Prod.fst).Nodup :=
  nodup_map_fst_foldl_addKarma _ _ (by simp)

theorem count_filterMap_eq {α : Type} (f : α → Option Nat) (l : List α) (u : Nat) :
    (l.filterMap f).count u = l.countP (fun x => f x == some u) := by
  induction l with
  | nil => rfl
  | cons a t ih =>
    rw [List.countP_cons]
    cases hfa : f a with
    | none =>
      rw [List.filterMap_cons_none hfa, ih, if_neg (by simp [hfa])]
      omega
    | some b =>
      rw [List.filterMap_cons_some hfa, List.count_cons, ih]
      by_cases hb : b = u
      · rw [if_pos (by simp [hfa, hb]), if_pos (by simp [hb])]
      · rw [if_neg (by simp [hfa]; omega), if_neg (by simp; omega)]

/-! ## Stable descending sort lemmas -/

theorem mem_insertByKarma {p x : Nat × Nat} {l : List (Nat × Nat)} :
    x ∈ insertByKarma p l ↔ x = p ∨ x ∈ l := by
  induction l with
  | nil => simp [insertByKarma]
  | cons q rest ih =>
    rw [insertByKarma]
    by_cases h : p.2 ≤ q.2
    · rw [if_pos h]
      simp only [List.mem_cons, ih]
      try tauto
    · rw [if_neg h]
      simp only [List.mem_cons]
      try tauto

theorem pairwise_insertByKarma (p : Nat × Nat) (l : List (Nat × Nat))
    (h : List.Pairwise (fun a b : Nat × Nat => b.2 ≤ a.2) l) :
    List.Pairwise (fun a b : Nat × Nat => b.2 ≤ a.2) (insertByKarma p l) := by
  induction l with
  | nil => simp [insertByKarma]
  | cons q rest ih =>
    rw [List.pairwise_cons] at h
    rw [insertByKarma]
    by_cases hle : p.2 ≤ q.2
    · rw [if_pos hle]
      rw [List.pairwise_cons]
      refine ⟨?_, ih h.2⟩
      intro x hx
      rcases mem_insertByKarma.mp hx with rfl | hx
      · exact hle
      · exact h.1 x hx
    · rw [if_neg hle]
      rw [List.pairwise_cons]
      refine ⟨?_, List.pairwise_cons.mpr h⟩
      intro x hx
      rcases List.mem_cons.mp hx with rfl | hx
      · omega
      · have := h.1 x hx
        omega

theorem pairwise_foldl_insertByKarma (l : List (Nat × Nat)) :
    ∀ (acc : List (Nat × Nat)), List.Pairwise (fun a b : Nat × Nat => b.2 ≤ a.2) acc →
      List.Pairwise (fun a b : Nat × Nat => b.2 ≤ a.2)
        (l.foldl (fun acc p => insertByKarma p acc) acc) := by
  induction l with
  | nil => intro acc h; exact h
  | cons p rest ih =>
    intro acc h
    rw [List.foldl_cons]
    exact ih _ (pairwise_insertByKarma p acc h)

theorem pairwise_sortKarmaDesc (l : List (Nat × Nat)) :
    List.Pairwise (fun a b : Nat × Nat => b.2 ≤ a.2) (sortKarmaDesc l) :=
  pairwise_foldl_insertByKarma l [] (by simp)

theorem perm_insertByKarma (p : Nat × Nat) (l : List (Nat × Nat)) :
    (insertByKarma p l).Perm (p :: l) := by
  induction l with
  | nil => simp [insertByKarma]
  | cons q rest ih =>
    rw [insertByKarma]
    by_cases h : p.2 ≤ q.2
    · rw [if_pos h]
      exact (ih.cons q).trans (List.Perm.swap p q rest)
    · rw [if_neg h]

theorem perm_foldl_insertByKarma (l : List (Nat × Nat)) :
    ∀ (acc : List (Nat × Nat)),
      (l.foldl (fun acc p => insertByKarma p acc) acc).Perm (acc ++ l) := by
  induction l with
  | nil => intro acc; simp
  | cons p rest ih =>
    intro acc
    rw [List.foldl_cons]
    refine (ih _).trans ?_
    refine ((perm_insertByKarma p acc).append_right rest).trans ?_
    exact List.perm_middle.symm

theorem perm_sortKarmaDesc (l : List (Nat × Nat)) : (sortKarmaDesc l).Perm l := by
  have := perm_foldl_insertByKarma l []
  simpa [sortKarmaDesc] using this

/-! ## Entry positivity -/

theorem bump_val_pos (m : List (Nat × Nat)) (k : Nat)
    (h : ∀ e ∈ m, 1 ≤ e.2) : ∀ e ∈ bump m k, 1 ≤ e.2 := by
  induction m with
  | nil =>
    intro e he
    rcases List.mem_singleton.mp he with rfl
    exact Nat.le_refl 1
  | cons q rest ih =>
    rcases q with ⟨a, c⟩
    intro e he
    rw [bump] at he
    by_cases hak : a = k
    · rw [if_pos hak] at he
      rcases List.mem_cons.mp he with rfl | hm
      · show 1 ≤ c + 1
        omega
      · exact h e (List.mem_cons_of_mem _ hm)
    · rw [if_neg hak] at he
      rcases List.mem_cons.mp he with rfl | hm
      · exact h (a, c) (List.mem_cons_self _ _)
      · exact ih (fun x hx => h x (List.mem_cons_of_mem _ hx)) e hm

theorem groupCount_val_pos (ks : List Nat) : ∀ e ∈ groupCount ks, 1 ≤ e.2 := by
  suffices h : ∀ (ks : List Nat) (acc : List (Nat × Nat)), (∀ e ∈ acc, 1 ≤ e.2) →
      ∀ e ∈ ks.foldl bump acc, 1 ≤ e.2 by
    exact h ks [] (by simp)
  intro ks
  induction ks with
  | nil => intro acc h e he; exact h e he
  | cons k rest ih =>
    intro acc h e he
    rw [List.foldl_cons] at he
    exact ih _ (bump_val_pos acc k h) e he

theorem addKarma_val_pos (m : List (Nat × Nat)) (it : Nat × Nat)
    (h : ∀ e ∈ m, 1 ≤ e.2) (hit : 1 ≤ it.2) : ∀ e ∈ addKarma m it, 1 ≤ e.2 := by
  induction m with
  | nil =>
    intro e he
    rcases List.mem_singleton.mp he with rfl
    exact hit
  | cons q rest ih =>
    rcases q with ⟨a, c⟩
    intro e he
    rw [addKarma] at he
    by_cases hae : a = it.1
    · rw [if_pos hae] at he
      rcases List.mem_cons.mp he with rfl | hm
      · show 1 ≤ c + it.2
        omega
      · exact h e (List.mem_cons_of_mem _ hm)
    · rw [if_neg hae] at he
      rcases List.mem_cons.mp he with rfl | hm
      · exact h (a, c) (List.mem_cons_self _ _)
      · exact ih (fun x hx => h x (List.mem_cons_of_mem _ hx)) e hm

theorem karmaByUser_val_pos (pk ck : List (Nat × Nat))
    (hpk : ∀ e ∈ pk, 1 ≤ e.2) (hck : ∀ e ∈ ck, 1 ≤ e.2) :
    ∀ e ∈ karmaByUser pk ck, 1 ≤ e.2 := by
  suffices h : ∀ (items : List (Nat × Nat)) (acc : List (Nat × Nat)),
      (∀ e ∈ acc, 1 ≤ e.2) → (∀ e ∈ items, 1 ≤ e.2) →
      ∀ e ∈ items.foldl addKarma acc, 1 ≤ e.2 by
    refine h (pk ++ ck) [] (by simp) ?_
    intro e he
    rcases List.mem_append.mp he with hm | hm
    · exact hpk e hm
    · exact hck e hm
  intro items
  induction items with
  | nil => intro acc ha _ e he; exact ha e he
  | cons it rest ih =>
    intro acc ha hi e he
    rw [List.foldl_cons] at he
    refine ih _ (addKarma_val_pos acc it ha (hi it (List.mem_cons_self _ _))) ?_ e he
    intro x hx
    exact hi x (List.mem_cons_of_mem _ hx)

theorem le_totOf_of_mem {m : List (Nat × Nat)} {e : Nat × Nat}
    (he : e ∈ m) : e.2 ≤ totOf m e.1 := by
  induction m with
  | nil => cases he
  | cons q rest ih =>
    rw [totOf_cons]
    rcases List.mem_cons.mp he with rfl | hm
    · rw [if_pos rfl]
      omega
    · have := ih hm
      omega

theorem postKarma_eq (now window : Int) (posts : List Post) (postLikes : List PostLike) :
    postKarma now window posts postLikes =
      (groupCount ((postLikes.filter (fun pl => now - window ≤ pl.createdAt)).filterMap
        (postAuthor posts))).map (fun e => (e.1, e.2 * 5)) := rfl

theorem commentKarma_eq (now window : Int) (comments : List Comment)
    (commentLikes : List CommentLike) :
    commentKarma now window comments commentLikes =
      groupCount ((commentLikes.filter (fun cl => now - window ≤ cl.createdAt)).filterMap
        (commentAuthor comments)) := rfl

/-! ## C4: the karma formula -/

/-- C4.  The leaderboard's karma for user `u` is 5 times the number of
in-window post-like rows whose post's author is `u` plus 1 times the number
of in-window comment-like rows whose comment's author is `u`; rows with
timestamp below `now - window` (for instance `now - window - 1`) contribute
nothing.  The second conjunct checks the 3-post-likes + 2-comment-likes = 17
scenario with an extra stale post like at `now - window - 1`. -/
theorem leaderboard_karma_formula :
    (∀ (now window : Int) (posts : List Post) (postLikes : List PostLike)
        (comments : List Comment) (commentLikes : List CommentLike) (u : Nat),
      karmaOf (karmaByUser (postKarma now window posts postLikes)
          (commentKarma now window comments commentLikes)) u =
        5 * postLikes.countP
            (fun pl => (postAuthor posts pl == some u) && decide (now - window ≤ pl.createdAt)) +
        1 * commentLikes.countP
            (fun cl =>
              (commentAuthor comments cl == some u) && decide (now - window ≤ cl.createdAt))) ∧
    karmaOf (karmaByUser
        (postKarma 100 24 [⟨1, 7⟩] [⟨1, 9, 100⟩, ⟨1, 10, 90⟩, ⟨1, 11, 76⟩, ⟨1, 12, 75⟩])
        (commentKarma 100 24 [⟨5, 7, none, [1]⟩] [⟨5, 20, 100⟩, ⟨5, 21, 80⟩])) 7 = 17 := by
  constructor
  · intro now window posts postLikes comments commentLikes u
    rw [karmaOf_eq_totOf _ _ (nodup_map_fst_karmaByUser _ _)]
    rw [karmaByUser, totOf_foldl_addKarma, totOf_nil, totOf_append]
    rw [postKarma_eq, commentKarma_eq]
    rw [totOf_map_mul5, totOf_groupCount, totOf_groupCount]
    rw [count_filterMap_eq, count_filterMap_eq]
    rw [List.countP_filter, List.countP_filter]
    ring
  · decide

/-! ## C1: tie order in the leaderboard -/

/-- C1 counterexample.  A dataset where the post-like rows group user 2
before user 1 (both with karma 5) yields the leaderboard [(2, 5), (1, 5)]:
two users with equal karma in descending, not ascending, user-id order, so
the claimed ordering contract does not hold. -/
theorem leaderboard_tie_order_counterexample :
    ¬ List.Pairwise (fun a b : Nat × Nat => b.2 < a.2 ∨ (a.2 = b.2 ∧ a.1 < b.1))
      (leaderboard 100 24 [⟨1, 2⟩, ⟨2, 1⟩] [⟨1, 50, 100⟩, ⟨2, 51, 100⟩] [] []) := by
  decide

/-- C1 amended.  The leaderboard is sorted non-increasingly by karma and is
the 5-entry prefix of the stable descending sort of the merged karma map;
users with equal karma keep the first-appearance order of their aggregation
rows (post-karma groups then comment-karma groups), which need not be
ascending user-id order. -/
theorem leaderboard_sorted_desc :
    ∀ (now window : Int) (posts : List Post) (postLikes : List PostLike)
      (comments : List Comment) (commentLikes : List CommentLike),
      List.Pairwise (fun a b : Nat × Nat => b.2 ≤ a.2)
        (leaderboard now window posts postLikes comments commentLikes) ∧
      leaderboard now window posts postLikes comments commentLikes =
        (sortKarmaDesc (karmaByUser (postKarma now window posts postLikes)
          (commentKarma now window comments commentLikes))).take 5 := by
  intro now window posts postLikes comments commentLikes
  refine ⟨?_, rfl⟩
  exact (pairwise_sortKarmaDesc _).sublist (List.take_sublist _ _)

/-! ## C7: zero-karma exclusion and truncation after full ranking -/

/-- C7.  Every leaderboard entry has positive karma; a user with no
in-window like rows at all is absent from the result; and truncation happens
only after the full ranking: any user present in the merged karma map but cut
from the result has karma at most that of every user shown. -/
theorem leaderboard_positive_and_truncation :
    ∀ (now window : Int) (posts : List Post) (postLikes : List PostLike)
      (comments : List Comment) (commentLikes : List CommentLike),
      (∀ e ∈ leaderboard now window posts postLikes comments commentLikes, 0 < e.2) ∧
      (∀ u : Nat,
        postLikes.countP
          (fun pl => (postAuthor posts pl == some u) && decide (now - window ≤ pl.createdAt)) = 0 →
        commentLikes.countP
          (fun cl => (commentAuthor comments cl == some u) && decide (now - window ≤ cl.createdAt)) = 0 →
        ∀ e ∈ leaderboard now window posts postLikes comments commentLikes, e.1 ≠ u) ∧
      (∀ x ∈ karmaByUser (postKarma now window posts postLikes)
          (commentKarma now window comments commentLikes),
        x ∉ leaderboard now window posts postLikes comments commentLikes →
        ∀ e ∈ leaderboard now window posts postLikes comments commentLikes, x.2 ≤ e.2) := by
  intro now window posts postLikes comments commentLikes
  have hpos : ∀ e ∈ karmaByUser (postKarma now window posts postLikes)
      (commentKarma now window comments commentLikes), 1 ≤ e.2 := by
    refine karmaByUser_val_pos _ _ ?_ ?_
    · intro e he
      rw [postKarma_eq] at he
      rcases List.mem_map.mp he with ⟨x, hx, rfl⟩
      have := groupCount_val_pos _ x hx
      show 1 ≤ x.2 * 5
      omega
    · intro e he
      exact groupCount_val_pos _ e he
  have hmem : ∀ e ∈ leaderboard now window posts postLikes comments commentLikes,
      e ∈ karmaByUser (postKarma now window posts postLikes)
        (commentKarma now window comments commentLikes) := by
    intro e he
    have h1 : e ∈ sortKarmaDesc (karmaByUser (postKarma now window posts postLikes)
        (commentKarma now window comments commentLikes)) :=
      (List.take_sublist _ _).mem he
    exact (perm_sortKarmaDesc _).mem_iff.mp h1
  refine ⟨?_, ?_, ?_⟩
  · intro e he
    have := hpos e (hmem e he)
    omega
  · intro u hp hc e he hu
    have h1 := hpos e (hmem e he)
    have h2 : e.2 ≤ totOf (karmaByUser (postKarma now window posts postLikes)
        (commentKarma now window comments commentLikes)) e.1 :=
      le_totOf_of_mem (hmem e he)
    have h3 : totOf (karmaByUser (postKarma now window posts postLikes)
        (commentKarma now window comments commentLikes)) u =
        karmaOf (karmaByUser (postKarma now window posts postLikes)
          (commentKarma now window comments commentLikes)) u :=
      (karmaOf_eq_totOf _ _ (nodup_map_fst_karmaByUser _ _)).symm
    have h4 := leaderboard_karma_formula.1 now window posts postLikes comments commentLikes u
    rw [hu] at h2
    rw [h3, h4, hp, hc] at h2
    omega
  · intro x hx hnot e he
    set sorted := sortKarmaDesc (karmaByUser (postKarma now window posts postLikes)
      (commentKarma now window comments commentLikes)) with hsorted
    have hxs : x ∈ sorted := (perm_sortKarmaDesc _).mem_iff.mpr hx
    have hsplit : sorted = sorted.take 5 ++ sorted.drop 5 := (List.take_append_drop 5 sorted).symm
    have hxdrop : x ∈ sorted.drop 5 := by
      rcases List.mem_append.mp (hsplit ▸ hxs) with hm | hm
      · exact absurd hm hnot
      · exact hm
    have hpw := pairwise_sortKarmaDesc (karmaByUser (postKarma now window posts postLikes)
      (commentKarma now window comments commentLikes))
    rw [← hsorted, hsplit] at hpw
    rw [List.pairwise_append] at hpw
    exact hpw.2.2 e he x hxdrop

/-- Witness for C7 at a concrete dataset: the entry of user 2 on the
leaderboard has positive karma. -/
theorem leaderboard_positive_and_truncation_witness :
    0 < ((2, 5) : Nat × Nat).2 :=
  (leaderboard_positive_and_truncation 100 24 [⟨1, 2⟩, ⟨2, 1⟩]
    [⟨1, 50, 100⟩, ⟨2, 51, 100⟩] [] []).1 (2, 5) (by decide)

/-! ## Build loop characterization -/

theorem childrenOf_nil (i : Nat) : childrenOf [] i = [] := rfl

theorem childrenOf_cons (k : Nat) (cs : List Comment) (rest : List (Nat × List Comment))
    (i : Nat) : childrenOf ((k, cs) :: rest) i = if k = i then cs else childrenOf rest i := by
  by_cases h : k = i
  · rw [if_pos h]
    unfold childrenOf
    rw [List.find?_cons_of_pos _ (by simp [h])]
  · rw [if_neg h]
    unfold childrenOf
    rw [List.find?_cons_of_neg _ (by simp [h])]

theorem childrenOf_appendChild (ch : List (Nat × List Comment)) (q : Nat) (c : Comment)
    (i : Nat) :
    childrenOf (appendChild ch q c) i = childrenOf ch i ++ (if q = i then [c] else []) := by
  induction ch with
  | nil =>
    rw [show appendChild [] q c = [(q, [c])] from rfl, childrenOf_cons, childrenOf_nil]
    by_cases h : q = i
    · rw [if_pos h]
      simp
    · rw [if_neg h]
      simp
  | cons e rest ih =>
    rcases e with ⟨k, cs⟩
    by_cases hkq : k = q
    · rw [show appendChild ((k, cs) :: rest) q c = (k, cs ++ [c]) :: rest from by
        rw [appendChild, if_pos hkq]]
      rw [childrenOf_cons, childrenOf_cons]
      by_cases hki : k = i
      · rw [if_pos hki, if_pos hki, if_pos (hkq ▸ hki)]
      · rw [if_neg hki, if_neg hki, if_neg (fun hqi => hki (hkq.trans hqi))]
        simp
    · rw [show appendChild ((k, cs) :: rest) q c = (k, cs) :: appendChild rest q c from by
        rw [appendChild, if_neg hkq]]
      rw [childrenOf_cons, childrenOf_cons]
      by_cases hki : k = i
      · rw [if_pos hki, if_pos hki, if_neg (fun hqi => hkq (hki.trans hqi.symm))]
        simp
      · rw [if_neg hki, if_neg hki, ih]

theorem buildAux_roots_children : ∀ (l : List Comment) (st st2 : BuildState),
    buildAux st l = .ok st2 →
    st2.roots = st.roots ++ l.filter (fun c => c.parent.isNone) ∧
    (∀ i, childrenOf st2.children i =
      childrenOf st.children i ++ l.filter (fun c => c.parent == some i)) := by
  intro l
  induction l with
  | nil =>
    intro st st2 hok
    rw [show buildAux st [] = .ok st from rfl] at hok
    injection hok with hok
    subst hok
    constructor
    · simp
    · intro i
      simp
  | cons c cs ih =>
    intro st st2 hok
    rw [buildAux] at hok
    cases hc : c.parent with
    | none =>
      rw [show buildStep st c = .ok ⟨st.seen ++ [c.id], st.roots ++ [c], st.children⟩ from by
        rw [buildStep, hc]] at hok
      obtain ⟨h1, h2⟩ := ih _ _ hok
      constructor
      · rw [h1]
        simp only []
        rw [List.filter_cons_of_pos (by simp [hc])]
        simp
      · intro i
        rw [h2 i]
        simp only []
        rw [List.filter_cons_of_neg (by simp [hc])]
    | some p =>
      rw [show buildStep st c =
          (if p ∈ st.seen ++ [c.id] then
            Except.ok ⟨st.seen ++ [c.id], st.roots, appendChild st.children p c⟩
          else Except.error (.orphanReference c.id p)) from by rw [buildStep, hc]] at hok
      by_cases hmem : p ∈ st.seen ++ [c.id]
      · rw [if_pos hmem] at hok
        obtain ⟨h1, h2⟩ := ih _ _ hok
        constructor
        · rw [h1]
          simp only []
          rw [List.filter_cons_of_neg (by simp [hc])]
        · intro i
          rw [h2 i]
          simp only [childrenOf_appendChild]
          by_cases hpi : p = i
          · rw [if_pos hpi, List.filter_cons_of_pos (by simp [hc, hpi])]
            simp
          · rw [if_neg hpi, List.filter_cons_of_neg (by simp [hc, hpi])]
            simp
      · rw [if_neg hmem] at hok
        cases hok

theorem buildAux_ok_parents : ∀ (l : List Comment) (st st2 : BuildState),
    buildAux st l = .ok st2 →
    ∀ c ∈ l, ∀ p, c.parent = some p → p ∈ st.seen ∨ p ∈ l.map Comment.id := by
  intro l
  induction l with
  | nil =>
    intro st st2 _ c hc
    cases hc
  | cons c cs ih =>
    intro st st2 hok x hx p hp
    rw [buildAux] at hok
    cases hc : c.parent with
    | none =>
      rw [show buildStep st c = .ok ⟨st.seen ++ [c.id], st.roots ++ [c], st.children⟩ from by
        rw [buildStep, hc]] at hok
      rcases List.mem_cons.mp hx with rfl | hx2
      · rw [hc] at hp
        cases hp
      · rcases ih _ _ hok x hx2 p hp with hs | hs
        · rcases List.mem_append.mp hs with h2 | h2
          · exact Or.inl h2
          · rcases List.mem_singleton.mp h2 with rfl
            exact Or.inr (by simp)
        · exact Or.inr (List.mem_cons_of_mem _ hs)
    | some q =>
      rw [show buildStep st c =
          (if q ∈ st.seen ++ [c.id] then
            Except.ok ⟨st.seen ++ [c.id], st.roots, appendChild st.children q c⟩
          else Except.error (.orphanReference c.id q)) from by rw [buildStep, hc]] at hok
      by_cases hmem : q ∈ st.seen ++ [c.id]
      · rw [if_pos hmem] at hok
        rcases List.mem_cons.mp hx with rfl | hx2
        · have hpq : p = q := by
            rw [hc] at hp
            injection hp with h
            exact h.symm
          subst hpq
          rcases List.mem_append.mp hmem with h2 | h2
          · exact Or.inl h2
          · rcases List.mem_singleton.mp h2 with rfl
            exact Or.inr (by simp)
        · rcases ih _ _ hok x hx2 p hp with hs | hs
          · rcases List.mem_append.mp hs with h2 | h2
            · exact Or.inl h2
            · rcases List.mem_singleton.mp h2 with rfl
              exact Or.inr (by simp)
          · exact Or.inr (List.mem_cons_of_mem _ hs)
      · rw [if_neg hmem] at hok
        cases hok

theorem buildAux_ok_of_parentsSeen : ∀ (l : List Comment) (st : BuildState),
    ParentsSeen st.seen l → ∃ st2, buildAux st l = .ok st2 := by
  intro l
  induction l with
  | nil =>
    intro st _
    exact ⟨st, rfl⟩
  | cons c cs ih =>
    intro st hps
    obtain ⟨hhead, htail⟩ := hps
    rw [buildAux]
    cases hc : c.parent with
    | none =>
      rw [show buildStep st c = .ok ⟨st.seen ++ [c.id], st.roots ++ [c], st.children⟩ from by
        rw [buildStep, hc]]
      exact ih ⟨st.seen ++ [c.id], st.roots ++ [c], st.children⟩ htail
    | some q =>
      have hq : q ∈ st.seen ++ [c.id] := by
        rcases hhead q hc with h | h
        · exact List.mem_append_left _ h
        · exact List.mem_append_right _ (by simp [h])
      rw [show buildStep st c =
          (if q ∈ st.seen ++ [c.id] then
            Except.ok ⟨st.seen ++ [c.id], st.roots, appendChild st.children q c⟩
          else Except.error (.orphanReference c.id q)) from by rw [buildStep, hc]]
      rw [if_pos hq]
      exact ih ⟨st.seen ++ [c.id], st.roots, appendChild st.children q c⟩ htail

/-! ## C2: orphan parent references signal an error -/

/-- C2.  If some comment of the input declares a parent id that matches no
comment in the sequence, `build` signals an error (the python loop raises on
the dict lookup); it never returns a result, so in particular the comment is
never placed in the root list. -/
theorem build_orphan_signals_error (l : List Comment) (c : Comment) (hc : c ∈ l) (p : Nat)
    (hp : c.parent = some p) (habs : p ∉ l.map Comment.id) :
    ∃ e, build l = .error e := by
  cases hb : buildAux ⟨[], [], []⟩ l with
  | error e =>
    refine ⟨e, ?_⟩
    rw [build, hb]
    rfl
  | ok st2 =>
    rcases buildAux_ok_parents l _ _ hb c hc p hp with h | h
    · cases h
    · exact absurd h habs

/-- Witness for C2: a single comment pointing at the absent parent id 99. -/
theorem build_orphan_signals_error_witness :
    ∃ e, build [⟨1, 1, some 99, [1, 1]⟩] = .error e :=
  build_orphan_signals_error _ ⟨1, 1, some 99, [1, 1]⟩ (by simp) 99 rfl (by simp)

/-! ## Forest lemmas -/

theorem forestFlat_nil : forestFlat [] = [] := by
  simp [forestFlat]

theorem forestFlat_cons (c : Comment) (ts rest : List CTree) :
    forestFlat (.node c ts :: rest) = c :: (forestFlat ts ++ forestFlat rest) := by
  simp [forestFlat]

theorem rootsOf_cons (c : Comment) (ts rest : List CTree) :
    rootsOf (.node c ts :: rest) = c :: rootsOf rest := rfl

theorem idsOf_nil : idsOf [] = [] := by
  rw [idsOf, forestFlat_nil]
  rfl

theorem idsOf_cons (c : Comment) (ts rest : List CTree) :
    idsOf (.node c ts :: rest) = c.id :: (idsOf ts ++ idsOf rest) := by
  rw [idsOf, forestFlat_cons]
  simp [idsOf]

theorem forestChildren_nil (i : Nat) : forestChildren i [] = [] := by
  simp [forestChildren]

theorem forestChildren_cons (i : Nat) (c : Comment) (ts rest : List CTree) :
    forestChildren i (.node c ts :: rest) =
      (if c.id = i then rootsOf ts else []) ++
        (forestChildren i ts ++ forestChildren i rest) := by
  simp [forestChildren]

theorem forestDepth_nil : forestDepth [] = 0 := by
  simp [forestDepth]

theorem forestDepth_cons (c : Comment) (ts rest : List CTree) :
    forestDepth (.node c ts :: rest) = max (forestDepth ts + 1) (forestDepth rest) := by
  simp [forestDepth]

theorem ForestWF_nil (pid : Option Nat) : ForestWF pid [] := by
  simp [ForestWF]

theorem ForestWF_cons (pid : Option Nat) (c : Comment) (ts rest : List CTree) :
    ForestWF pid (.node c ts :: rest) ↔
      c.parent = pid ∧ ForestWF (some c.id) ts ∧ ForestWF pid rest := by
  simp [ForestWF]

theorem mem_idsOf {ts : List CTree} {x : Comment} (hx : x ∈ forestFlat ts) :
    x.id ∈ idsOf ts :=
  List.mem_map.mpr ⟨x, hx, rfl⟩

theorem flat_parent_mem : ∀ (ts : List CTree) (pid : Option Nat), ForestWF pid ts →
    ∀ x ∈ forestFlat ts, x.parent = pid ∨ ∃ j, j ∈ idsOf ts ∧ x.parent = some j := by
  intro ts
  induction ts using forestFlat.induct with
  | case1 =>
    intro pid _ x hx
    rw [forestFlat_nil] at hx
    cases hx
  | case2 c ts rest ih1 ih2 =>
    intro pid hwf x hx
    obtain ⟨hpar, hwf1, hwf2⟩ := (ForestWF_cons pid c ts rest).mp hwf
    rw [forestFlat_cons] at hx
    rcases List.mem_cons.mp hx with rfl | hx2
    · exact Or.inl hpar
    · rcases List.mem_append.mp hx2 with hm | hm
      · rcases ih1 (some c.id) hwf1 x hm with h | ⟨j, hj, hpj⟩
        · exact Or.inr ⟨c.id, by rw [idsOf_cons]; simp, h⟩
        · exact Or.inr ⟨j, by rw [idsOf_cons]; simp [hj], hpj⟩
      · rcases ih2 pid hwf2 x hm with h | ⟨j, hj, hpj⟩
        · exact Or.inl h
        · exact Or.inr ⟨j, by rw [idsOf_cons]; simp [hj], hpj⟩

theorem flat_filter_parent_nil (ts : List CTree) (pid : Option Nat) (hwf : ForestWF pid ts)
    (i : Nat) (hpid : pid ≠ some i) (hids : i ∉ idsOf ts) :
    (forestFlat ts).filter (fun c => c.parent == some i) = [] := by
  rw [List.filter_eq_nil_iff]
  intro x hx
  rcases flat_parent_mem ts pid hwf x hx with h | ⟨j, hj, hpj⟩
  · simp only [h, beq_iff_eq]
    exact hpid
  · simp only [hpj, beq_iff_eq, Option.some.injEq]
    exact fun hcon => hids (hcon ▸ hj)

theorem flat_filter_parent_roots : ∀ (ts : List CTree) (i : Nat),
    ForestWF (some i) ts → i ∉ idsOf ts →
    (forestFlat ts).filter (fun c => c.parent == some i) = rootsOf ts := by
  intro ts
  induction ts using forestFlat.induct with
  | case1 =>
    intro i _ _
    rw [forestFlat_nil]
    rfl
  | case2 d ds rest ih1 ih2 =>
    intro i hwf hids
    obtain ⟨hpar, hwf1, hwf2⟩ := (ForestWF_cons _ d ds rest).mp hwf
    rw [idsOf_cons] at hids
    rw [forestFlat_cons, rootsOf_cons]
    rw [List.filter_cons_of_pos (by simp [hpar])]
    rw [List.filter_append]
    have hdne : d.id ≠ i := fun h => hids (by simp [h])
    rw [flat_filter_parent_nil ds (some d.id) hwf1 i (by simp [hdne])
      (fun h => hids (by simp [h]))]
    rw [ih2 i hwf2 (fun h => hids (by simp [h]))]
    rfl

theorem forestChildren_eq_nil : ∀ (ts : List CTree) (i : Nat), i ∉ idsOf ts →
    forestChildren i ts = [] := by
  intro ts
  induction ts using forestFlat.induct with
  | case1 =>
    intro i _
    rw [forestChildren_nil]
  | case2 c ts rest ih1 ih2 =>
    intro i hids
    rw [idsOf_cons] at hids
    rw [forestChildren_cons]
    rw [if_neg (fun h => hids (by simp [h]))]
    rw [ih1 i (fun h => hids (by simp [h])), ih2 i (fun h => hids (by simp [h]))]
    rfl

theorem flat_filter_parent_eq_forestChildren : ∀ (ts : List CTree) (pid : Option Nat),
    ForestWF pid ts → (idsOf ts).Nodup → ∀ i, pid ≠ some i →
    (forestFlat ts).filter (fun c => c.parent == some i) = forestChildren i ts := by
  intro ts
  induction ts using forestFlat.induct with
  | case1 =>
    intro pid _ _ i _
    rw [forestFlat_nil, forestChildren_nil]
    rfl
  | case2 c ts rest ih1 ih2 =>
    intro pid hwf hnd i hpid
    obtain ⟨hpar, hwf1, hwf2⟩ := (ForestWF_cons pid c ts rest).mp hwf
    rw [idsOf_cons] at hnd
    rw [List.nodup_cons] at hnd
    obtain ⟨hcid, hnd2⟩ := hnd
    have hnd_ts : (idsOf ts).Nodup := (List.nodup_append.mp hnd2).1
    have hnd_rest : (idsOf rest).Nodup := (List.nodup_append.mp hnd2).2.1
    have hdisj := (List.nodup_append.mp hnd2).2.2
    rw [forestFlat_cons, forestChildren_cons]
    rw [List.filter_cons_of_neg (by
      simp only [beq_iff_eq, hpar]
      simpa using hpid)]
    rw [List.filter_append]
    by_cases hci : c.id = i
    · rw [if_pos hci]
      have hits : i ∉ idsOf ts := fun h => hcid (by rw [hci]; exact List.mem_append_left _ h)
      have hirest : i ∉ idsOf rest := fun h => hcid (by
        rw [hci]
        exact List.mem_append_right _ h)
      rw [flat_filter_parent_roots ts i (hci ▸ hwf1) hits]
      rw [flat_filter_parent_nil rest pid hwf2 i hpid hirest]
      rw [forestChildren_eq_nil ts i hits, forestChildren_eq_nil rest i hirest]
      simp
    · rw [if_neg hci]
      rw [ih1 (some c.id) hwf1 hnd_ts i (by simp [hci])]
      rw [ih2 pid hwf2 hnd_rest i hpid]
      simp

theorem flat_filter_root : ∀ (ts : List CTree), ForestWF none ts →
    (forestFlat ts).filter (fun c => c.parent.isNone) = rootsOf ts := by
  intro ts
  induction ts using forestFlat.induct with
  | case1 =>
    intro _
    rw [forestFlat_nil]
    rfl
  | case2 c ts rest ih1 ih2 =>
    intro hwf
    obtain ⟨hpar, hwf1, hwf2⟩ := (ForestWF_cons none c ts rest).mp hwf
    rw [forestFlat_cons, rootsOf_cons]
    rw [List.filter_cons_of_pos (by simp [hpar])]
    rw [List.filter_append]
    have hsub : (forestFlat ts).filter (fun c => c.parent.isNone) = [] := by
      rw [List.filter_eq_nil_iff]
      intro x hx
      rcases flat_parent_mem ts (some c.id) hwf1 x hx with h | ⟨j, _, hpj⟩
      · simp [h]
      · simp [hpj]
    rw [hsub, ih2 hwf2]
    rfl

theorem forestDepth_le_length : ∀ (ts : List CTree),
    forestDepth ts ≤ (forestFlat ts).length := by
  intro ts
  induction ts using forestFlat.induct with
  | case1 =>
    rw [forestFlat_nil, forestDepth_nil]
    exact Nat.le_refl 0
  | case2 c ts rest ih1 ih2 =>
    rw [forestFlat_cons, forestDepth_cons]
    simp only [List.length_cons, List.length_append]
    omega

theorem flattenAux_zero (ch : List (Nat × List Comment)) (cs : List Comment) :
    flattenAux ch 0 cs = [] := rfl

theorem flattenAux_nil (ch : List (Nat × List Comment)) (fuel : Nat) :
    flattenAux ch fuel [] = [] := by
  cases fuel with
  | zero => rfl
  | succ f => rfl

theorem flattenAux_cons (ch : List (Nat × List Comment)) (fuel : Nat) (c : Comment)
    (cs : List Comment) :
    flattenAux ch (fuel + 1) (c :: cs) =
      c :: (flattenAux ch fuel (childrenOf ch c.id) ++ flattenAux ch (fuel + 1) cs) := by
  simp [flattenAux]

theorem flattenAux_forest : ∀ (ts : List CTree) (ch : List (Nat × List Comment)) (fuel : Nat),
    (idsOf ts).Nodup → forestDepth ts ≤ fuel →
    (∀ i, i ∈ idsOf ts → childrenOf ch i = forestChildren i ts) →
    flattenAux ch fuel (rootsOf ts) = forestFlat ts := by
  intro ts
  induction ts using forestFlat.induct with
  | case1 =>
    intro ch fuel _ _ _
    rw [show rootsOf [] = [] from rfl, forestFlat_nil]
    exact flattenAux_nil ch fuel
  | case2 c ts rest ih1 ih2 =>
    intro ch fuel hnd hdep hch
    rw [idsOf_cons] at hnd
    rw [List.nodup_cons] at hnd
    obtain ⟨hcid, hnd2⟩ := hnd
    have hnd_ts : (idsOf ts).Nodup := (List.nodup_append.mp hnd2).1
    have hnd_rest : (idsOf rest).Nodup := (List.nodup_append.mp hnd2).2.1
    have hdisj := (List.nodup_append.mp hnd2).2.2
    have hcts : c.id ∉ idsOf ts := fun h => hcid (List.mem_append_left _ h)
    have hcrest : c.id ∉ idsOf rest := fun h => hcid (List.mem_append_right _ h)
    cases fuel with
    | zero =>
      rw [forestDepth_cons] at hdep
      omega
    | succ f =>
      rw [rootsOf_cons, flattenAux_cons, forestFlat_cons]
      have hc1 : childrenOf ch c.id = rootsOf ts := by
        rw [hch c.id (by rw [idsOf_cons]; simp), forestChildren_cons, if_pos rfl,
          forestChildren_eq_nil ts c.id hcts, forestChildren_eq_nil rest c.id hcrest]
        simp
      rw [hc1]
      rw [forestDepth_cons] at hdep
      have hdts : forestDepth ts ≤ f := by omega
      have hdrest : forestDepth rest ≤ f + 1 := by omega
      rw [ih1 ch f hnd_ts hdts (by
        intro i hi
        have hine : c.id ≠ i := fun h => hcts (h ▸ hi)
        have hirest : i ∉ idsOf rest := fun h => hdisj hi h
        rw [hch i (by rw [idsOf_cons]; simp [hi]), forestChildren_cons, if_neg hine,
          forestChildren_eq_nil rest i hirest]
        simp)]
      rw [ih2 ch (f + 1) hnd_rest hdrest (by
        intro i hi
        have hine : c.id ≠ i := fun h => hcrest (h ▸ hi)
        have hits : i ∉ idsOf ts := fun h => hdisj h hi
        rw [hch i (by rw [idsOf_cons]; simp [hi]), forestChildren_cons, if_neg hine,
          forestChildren_eq_nil ts i hits]
        simp)]

/-! ## Parsing a path-sorted list into a forest -/

theorem dropWhileHeadFalse {α : Type} (p : α → Bool) :
    ∀ (l : List α) (o : α) (t : List α), l.dropWhile p = o :: t → p o = false := by
  intro l
  induction l with
  | nil =>
    intro o t h
    rw [List.dropWhile_nil] at h
    cases h
  | cons a l2 ih =>
    intro o t h
    rw [List.dropWhile_cons] at h
    by_cases hpa : p a = true
    · rw [if_pos hpa] at h
      exact ih o t h
    · rw [if_neg hpa] at h
      injection h with h1 _
      subst h1
      simpa using hpa

theorem mem_left_of_pathLt {l a b : List Comment} {c y : Comment}
    (hpw : List.Pairwise pathLt l) (hsplit : l = a ++ c :: b) (hy : y ∈ l)
    (hlt : pathLt y c) : y ∈ a := by
  subst hsplit
  rcases List.mem_append.mp hy with h | h
  · exact h
  · rcases List.mem_cons.mp h with rfl | h2
    · exact absurd hlt (lexIrrefl _)
    · exfalso
      have h3 := (List.pairwise_append.mp hpw).2.1
      have h4 := (List.pairwise_cons.mp h3).1 y h2
      exact lexAsymm _ _ hlt h4

theorem isPre_dropLast {a b : List Nat} (h : isPre a b) (hl : a.length < b.length) :
    isPre a b.dropLast := by
  rw [isPre_iff] at h
  obtain ⟨t, rfl⟩ := h
  have ht : t ≠ [] := by
    intro h0
    rw [h0] at hl
    simp at hl
  rw [isPre_iff]
  refine ⟨t.dropLast, ?_⟩
  have h2 : a ++ t = (a ++ t.dropLast) ++ [t.getLast ht] := by
    rw [List.append_assoc, List.dropLast_append_getLast ht]
  rw [h2, List.dropLast_concat]

theorem isPre_dropLast_self {b : List Nat} (hb : b ≠ []) : isPre b.dropLast b := by
  rw [isPre_iff]
  exact ⟨[b.getLast hb], (List.dropLast_append_getLast hb).symm⟩

theorem parse : ∀ (n : Nat) (l : List Comment) (pref : List Nat) (pid : Option Nat),
    l.length ≤ n → SortedBlock pref pid l →
    ∃ ts, ForestWF pid ts ∧ forestFlat ts = l := by
  intro n
  induction n with
  | zero =>
    intro l pref pid hlen _
    have h0 : l = [] := List.eq_nil_of_length_eq_zero (by omega)
    subst h0
    exact ⟨[], ForestWF_nil pid, forestFlat_nil⟩
  | succ n ih =>
    intro l pref pid hlen hsb
    cases l with
    | nil => exact ⟨[], ForestWF_nil pid, forestFlat_nil⟩
    | cons c rest =>
      obtain ⟨hpw, hext, hshallow, hdeep⟩ := hsb
      obtain ⟨hpre_c, hlen_c⟩ := hext c (List.mem_cons_self c rest)
      have hcnil : c.path ≠ [] := by
        intro h0
        rw [h0] at hlen_c
        simp at hlen_c
      have hcy : ∀ y ∈ rest, pathLt c y := (List.pairwise_cons.mp hpw).1
      have hpw_rest : List.Pairwise pathLt rest := (List.pairwise_cons.mp hpw).2
      have hlen1 : c.path.length = pref.length + 1 := by
        by_contra hne
        have hgt : pref.length + 1 < c.path.length := by omega
        obtain ⟨y, hy, hpar, hypath⟩ := hdeep c (List.mem_cons_self c rest) hgt
        have hylt : pathLt y c := by
          show segLt y.path c.path
          rw [hypath]
          conv_rhs => rw [← List.dropLast_append_getLast hcnil]
          exact lexOfApp _ _ (by simp)
        have hmem := mem_left_of_pathLt hpw (show c :: rest = [] ++ c :: rest from rfl) hy hylt
        cases hmem
      have hparc : c.parent = pid := hshallow c (List.mem_cons_self c rest) hlen1
      have hsplit : rest = rest.takeWhile (fun w => decide (isPre c.path w.path)) ++
          rest.dropWhile (fun w => decide (isPre c.path w.path)) :=
        (List.takeWhile_append_dropWhile _ _).symm
      have hins : ∀ x ∈ rest.takeWhile (fun w => decide (isPre c.path w.path)),
          isPre c.path x.path ∧ c.path.length < x.path.length := by
        intro x hx
        have hp0 := @List.mem_takeWhile_imp Comment (fun w => decide (isPre c.path w.path)) rest x hx
        have hp1 : isPre c.path x.path := of_decide_eq_true hp0
        have hx_rest : x ∈ rest := (List.takeWhile_sublist _).subset hx
        have hlt : segLt c.path x.path := hcy x hx_rest
        have hne : x.path ≠ c.path := by
          intro h0
          exact lexIrrefl c.path (h0 ▸ hlt)
        refine ⟨hp1, ?_⟩
        have hle := isPre_length hp1
        rcases Nat.lt_or_ge c.path.length x.path.length with h | h
        · exact h
        · exact absurd (isPre_eq_of_length hp1 h) (fun he => hne he.symm)
      have houts : ∀ z ∈ rest.dropWhile (fun w => decide (isPre c.path w.path)),
          ¬ isPre c.path z.path := by
        cases hostruct : rest.dropWhile (fun w => decide (isPre c.path w.path)) with
        | nil =>
          intro z hz
          cases hz
        | cons o t =>
          have hofalse : (fun w => decide (isPre c.path w.path)) o = false :=
            dropWhileHeadFalse _ rest o t hostruct
          have honot : ¬ isPre c.path o.path := by simpa using hofalse
          have hot_sub : (o :: t) ⊆ rest := by
            rw [← hostruct]
            exact (List.dropWhile_sublist _).subset
          have hpw_out : List.Pairwise pathLt (o :: t) := by
            rw [← hostruct]
            exact hpw_rest.sublist (List.dropWhile_sublist _)
          intro z hz
          rcases List.mem_cons.mp hz with rfl | hz2
          · exact honot
          · intro hpz
            have hco : segLt c.path o.path := hcy o (hot_sub (List.mem_cons_self o t))
            have hoz : segLt o.path z.path := (List.pairwise_cons.mp hpw_out).1 z hz2
            exact honot (lexBetweenPre c.path o.path z.path hco hoz hpz)
      have huniq : ∀ y ∈ c :: rest, y.path = c.path → y = c := by
        intro y hy hpath
        rcases List.mem_cons.mp hy with rfl | hy2
        · rfl
        · have hlt : segLt c.path y.path := hcy y hy2
          exact absurd (hpath ▸ hlt) (lexIrrefl _)
      have hsb_in : SortedBlock c.path (some c.id)
          (rest.takeWhile (fun w => decide (isPre c.path w.path))) := by
        refine ⟨hpw_rest.sublist (List.takeWhile_sublist _), ?_, ?_, ?_⟩
        · intro x hx
          exact hins x hx
        · intro x hx hxlen
          have hx_l : x ∈ c :: rest :=
            List.mem_cons_of_mem c ((List.takeWhile_sublist _).subset hx)
          have hgt : pref.length + 1 < x.path.length := by omega
          obtain ⟨y, hy, hpar, hypath⟩ := hdeep x hx_l hgt
          obtain ⟨hpre_x, hlen_x⟩ := hins x hx
          obtain ⟨t2, ht2⟩ := isPre_iff.mp hpre_x
          have ht2len : t2.length = 1 := by
            have hl2 := congrArg List.length ht2
            simp at hl2
            omega
          obtain ⟨k, hk⟩ := List.length_eq_one.mp ht2len
          have hdrop : x.path.dropLast = c.path := by
            rw [ht2, hk, List.dropLast_concat]
          have hyc : y = c := huniq y hy (by rw [hypath, hdrop])
          rw [hpar, hyc]
        · intro x hx hxlen
          have hx_l : x ∈ c :: rest :=
            List.mem_cons_of_mem c ((List.takeWhile_sublist _).subset hx)
          obtain ⟨hpre_x, hlen_x⟩ := hins x hx
          have hgt : pref.length + 1 < x.path.length := by omega
          obtain ⟨y, hy, hpar, hypath⟩ := hdeep x hx_l hgt
          refine ⟨y, ?_, hpar, hypath⟩
          have hylen : c.path.length < y.path.length := by
            have hl2 := congrArg List.length hypath
            simp [List.length_dropLast] at hl2
            omega
          have hypre : isPre c.path y.path := by
            rw [hypath]
            exact isPre_dropLast hpre_x (by omega)
          have hyne : y ≠ c := by
            intro h0
            rw [h0] at hylen
            omega
          have hy_rest : y ∈ rest := by
            rcases List.mem_cons.mp hy with h0 | h0
            · exact absurd h0 hyne
            · exact h0
          rw [hsplit] at hy_rest
          rcases List.mem_append.mp hy_rest with h0 | h0
          · exact h0
          · exact absurd hypre (houts y h0)
      have hsb_out : SortedBlock pref pid
          (rest.dropWhile (fun w => decide (isPre c.path w.path))) := by
        refine ⟨hpw_rest.sublist (List.dropWhile_sublist _), ?_, ?_, ?_⟩
        · intro z hz
          exact hext z (List.mem_cons_of_mem c ((List.dropWhile_sublist _).subset hz))
        · intro z hz hzlen
          exact hshallow z (List.mem_cons_of_mem c ((List.dropWhile_sublist _).subset hz)) hzlen
        · intro z hz hzlen
          have hz_l : z ∈ c :: rest :=
            List.mem_cons_of_mem c ((List.dropWhile_sublist _).subset hz)
          obtain ⟨y, hy, hpar, hypath⟩ := hdeep z hz_l hzlen
          refine ⟨y, ?_, hpar, hypath⟩
          have hznil : z.path ≠ [] := by
            have hl2 := (hext z hz_l).2
            intro h0
            rw [h0] at hl2
            simp at hl2
          have hzpre_drop : isPre z.path.dropLast z.path := isPre_dropLast_self hznil
          have hyz : isPre y.path z.path := by
            rw [hypath]
            exact hzpre_drop
          have hynotc : y ≠ c := by
            intro h0
            have hcp : c.path = z.path.dropLast := by
              rw [← h0]
              exact hypath
            refine houts z hz ?_
            rw [hcp]
            exact hzpre_drop
          have hy_rest : y ∈ rest := by
            rcases List.mem_cons.mp hy with h0 | h0
            · exact absurd h0 hynotc
            · exact h0
          rw [hsplit] at hy_rest
          rcases List.mem_append.mp hy_rest with h0 | h0
          · exfalso
            have hypre : isPre c.path y.path := (hins y h0).1
            exact houts z hz (isPre_trans hypre hyz)
          · exact h0
      have hlen_parts : (rest.takeWhile (fun w => decide (isPre c.path w.path))).length ≤ n ∧
          (rest.dropWhile (fun w => decide (isPre c.path w.path))).length ≤ n := by
        have h1 := congrArg List.length hsplit
        simp only [List.length_append] at h1
        simp only [List.length_cons] at hlen
        omega
      obtain ⟨ts_in, hwf_in, hflat_in⟩ := ih _ c.path (some c.id) hlen_parts.1 hsb_in
      obtain ⟨ts_out, hwf_out, hflat_out⟩ := ih _ pref pid hlen_parts.2 hsb_out
      refine ⟨.node c ts_in :: ts_out, ?_, ?_⟩
      · exact (ForestWF_cons pid c ts_in ts_out).mpr ⟨hparc, hwf_in, hwf_out⟩
      · rw [forestFlat_cons, hflat_in, hflat_out, ← hsplit]

/-! ## From sortedness to build success -/

theorem sortedWF_parentsSeen (l : List Comment) (hsw : SortedWF l) :
    ∀ (b a : List Comment), l = a ++ b → ParentsSeen (a.map Comment.id) b := by
  obtain ⟨⟨hpw, hext, hshallow, hdeep⟩, _⟩ := hsw
  intro b
  induction b with
  | nil =>
    intro a _
    trivial
  | cons c cs ih =>
    intro a hsplit
    refine ⟨?_, ?_⟩
    · intro p hp
      have hcl : c ∈ l := by
        rw [hsplit]
        exact List.mem_append_right a (List.mem_cons_self c cs)
      have hl0 := (hext c hcl).2
      by_cases hl1 : c.path.length = ([] : List Nat).length + 1
      · have hnone := hshallow c hcl hl1
        rw [hnone] at hp
        cases hp
      · have hgt : ([] : List Nat).length + 1 < c.path.length := by
          simp only [List.length_nil] at hl0 hl1 ⊢
          omega
        obtain ⟨y, hy, hpar, hypath⟩ := hdeep c hcl hgt
        have hcnil : c.path ≠ [] := by
          intro h0
          rw [h0] at hl0
          simp at hl0
        have hylt : pathLt y c := by
          show segLt y.path c.path
          rw [hypath]
          conv_rhs => rw [← List.dropLast_append_getLast hcnil]
          exact lexOfApp _ _ (by simp)
        have hya : y ∈ a := mem_left_of_pathLt hpw hsplit hy hylt
        have hpy : p = y.id := by
          rw [hp] at hpar
          exact Option.some.inj hpar
        exact Or.inl (hpy ▸ List.mem_map.mpr ⟨y, hya, rfl⟩)
    · have htail := ih (a ++ [c]) (by rw [hsplit]; simp)
      rw [List.map_append] at htail
      simpa using htail

theorem build_ok_of_sortedWF (l : List Comment) (hsw : SortedWF l) :
    ∃ st2, buildAux ⟨[], [], []⟩ l = .ok st2 := by
  refine buildAux_ok_of_parentsSeen l ⟨[], [], []⟩ ?_
  have h := sortedWF_parentsSeen l hsw l [] rfl
  simpa using h

/-! ## C5: the round trip -/

/-- C5.  For every comment sequence of one post sorted ascending by path
(with the data-model path/parent invariants and distinct ids), `build`
succeeds and pre-order flattening of the returned forest reproduces the
input sequence exactly; on the empty sequence `build` returns the empty
forest. -/
theorem build_flatten_roundtrip :
    (∀ (l : List Comment), SortedWF l →
      ∃ roots ch, build l = .ok (roots, ch) ∧ flattenAux ch l.length roots = l) ∧
    build [] = .ok ([], []) := by
  constructor
  · intro l hsw
    obtain ⟨ts, hwf, hflat⟩ := parse l.length l [] none (Nat.le_refl _) hsw.1
    obtain ⟨st2, hok⟩ := build_ok_of_sortedWF l hsw
    refine ⟨st2.roots, st2.children, ?_, ?_⟩
    · rw [build, hok]
      rfl
    · have hchar := buildAux_roots_children l _ _ hok
      have hroots : st2.roots = l.filter (fun c => c.parent.isNone) := by
        have h1 := hchar.1
        simpa using h1
      have hch : ∀ i, childrenOf st2.children i =
          l.filter (fun c => c.parent == some i) := by
        intro i
        have h1 := hchar.2 i
        rw [childrenOf_nil] at h1
        simpa using h1
      have hids : idsOf ts = l.map Comment.id := by
        rw [idsOf, hflat]
      have hnodup2 : (idsOf ts).Nodup := by
        rw [hids]
        exact hsw.2
      have hchildeq : ∀ i, i ∈ idsOf ts → childrenOf st2.children i = forestChildren i ts := by
        intro i hi
        rw [hch i, ← hflat]
        exact flat_filter_parent_eq_forestChildren ts none hwf hnodup2 i (by simp)
      have hdepth : forestDepth ts ≤ l.length := by
        have h1 := forestDepth_le_length ts
        rw [hflat] at h1
        exact h1
      have hroots2 : st2.roots = rootsOf ts := by
        rw [hroots, ← hflat]
        exact flat_filter_root ts hwf
      rw [hroots2]
      rw [flattenAux_forest ts st2.children l.length hnodup2 hdepth hchildeq]
      exact hflat
  · rfl

/-- Witness for C5 on a two-comment thread: a root and one reply. -/
theorem build_flatten_roundtrip_witness :
    ∃ roots ch, build [⟨1, 1, none, [1]⟩, ⟨2, 1, some 1, [1, 1]⟩] = .ok (roots, ch) ∧
      flattenAux ch 2 roots = [⟨1, 1, none, [1]⟩, ⟨2, 1, some 1, [1, 1]⟩] :=
  build_flatten_roundtrip.1 [⟨1, 1, none, [1]⟩, ⟨2, 1, some 1, [1, 1]⟩] (by decide)


end RedditClone
